import Mathlib

/-!
Verification development for the tile-synchronized 3D layer pipeline of the
`3d_scene_editor` repository.  Each section embeds one component of the
source (TypeScript) as executable Lean definitions and proves the stated
properties about them.  JavaScript `Map` objects are modelled as
insertion-ordered association lists, JavaScript numbers that only ever hold
small integers are modelled as `Nat`, and geometric quantities are modelled
over `ℚ`.
-/

/-! ## C1: `InstanceLayer.distribute` (src/unnamed/part_007, lines 286-298)

The source mutates a `Map<string, number>` whose keys are the available mesh
asset urls.  We model the map as the insertion-ordered list of its keys and
return the list of `(key, count)` pairs the map holds after the call.

Source:
```
distribute(mapNumber, object_size, feature_size) {
  const quotient = Math.floor(feature_size / object_size);
  const remainder = feature_size % feature_size;
  for (const key of mapNumber.keys()) mapNumber.set(key, quotient);
  let count = 0;
  for (const key of mapNumber.keys()) {
    if (count >= remainder) break;
    mapNumber.set(key, (mapNumber.get(key) ?? 0) + 1);
    count += 1;
  }
}
```
The second loop increments exactly the first `remainder` keys (in insertion
order).  `distribute` is only called with `object_size = mapObj3d.size ≥ 1`
(guarded in `prerender`), so `Nat` division matches `Math.floor`. -/

def distribute (keys : List Nat) (object_size feature_size : Nat) :
    List (Nat × Nat) :=
  let quotient := feature_size / object_size
  let remainder := feature_size % feature_size
  let base := keys.map fun k => (k, quotient)
  (base.take remainder).map (fun p => (p.1, p.2 + 1)) ++ base.drop remainder

/-! ## C3: `TileFetcher` (src/unnamed/part_003)

State of the bounded fetch queue: `active` is the number of in-flight
downloads, `queue` the list of queued jobs (insertion order; `queue.shift()`
pops the front), `MAX` the configured concurrency cap.

`runStep` models `run()`: it returns unchanged when `active >= MAX`,
otherwise it pops the front job and executes it (the job thunk increments
`active` and starts the network request).  `fetchStep` models `fetch(...)`:
push the job, then `run()`.  `completeStep` models the `finally` handler of
a completed download: decrement `active`, then `run()`. -/

structure TileFetcher where
  active : Nat
  queue : List Nat
  MAX : Nat
  deriving DecidableEq, Repr

def TileFetcher.runStep (s : TileFetcher) : TileFetcher :=
  if s.MAX ≤ s.active then s
  else
    match s.queue with
    | [] => s
    | _ :: rest => { s with active := s.active + 1, queue := rest }

def TileFetcher.fetchStep (s : TileFetcher) (job : Nat) : TileFetcher :=
  TileFetcher.runStep { s with queue := s.queue ++ [job] }

def TileFetcher.completeStep (s : TileFetcher) : TileFetcher :=
  TileFetcher.runStep { s with active := s.active - 1 }

/-- States reachable from a freshly constructed `TileFetcher(max)` by any
interleaving of `fetch` calls and download completions.  A completion event
can only fire for a download that is actually in flight (`0 < active`). -/
inductive TileFetcher.Reachable : TileFetcher → Prop
  | init (max : Nat) : TileFetcher.Reachable { active := 0, queue := [], MAX := max }
  | fetch {s : TileFetcher} (job : Nat) :
      TileFetcher.Reachable s → TileFetcher.Reachable (s.fetchStep job)
  | complete {s : TileFetcher} :
      TileFetcher.Reachable s → 0 < s.active → TileFetcher.Reachable s.completeStep

/-- Iterate `n` completion events. -/
def TileFetcher.drain (s : TileFetcher) : Nat → TileFetcher
  | 0 => s
  | n + 1 => TileFetcher.drain s.completeStep n

/-- The inductive invariant of the fetch queue: the in-flight count never
exceeds the cap, and whenever a job is left queued the cap is saturated. -/
def TileFetcher.Inv (s : TileFetcher) : Prop :=
  s.active ≤ s.MAX ∧ (s.queue ≠ [] → s.MAX ≤ s.active)

theorem TileFetcher.runStep_MAX (s : TileFetcher) : s.runStep.MAX = s.MAX := by
  unfold TileFetcher.runStep
  split
  · rfl
  · cases s.queue <;> rfl

theorem TileFetcher.completeStep_MAX (s : TileFetcher) :
    s.completeStep.MAX = s.MAX := by
  unfold TileFetcher.completeStep
  rw [TileFetcher.runStep_MAX]

theorem TileFetcher.inv_fetchStep {s : TileFetcher} (h : s.Inv) (job : Nat) :
    (s.fetchStep job).Inv := by
  obtain ⟨a, q, m⟩ := s
  obtain ⟨hb, hq⟩ := h
  simp only at hb hq
  cases q with
  | nil =>
    by_cases hge : m ≤ a
    · simp [TileFetcher.fetchStep, TileFetcher.runStep, TileFetcher.Inv, hge]
      omega
    · simp [TileFetcher.fetchStep, TileFetcher.runStep, TileFetcher.Inv, hge]
      omega
  | cons x t =>
    have hsat : m ≤ a := hq (by simp)
    simp [TileFetcher.fetchStep, TileFetcher.runStep, TileFetcher.Inv, hsat]
    omega

theorem TileFetcher.inv_completeStep {s : TileFetcher} (h : s.Inv) :
    s.completeStep.Inv := by
  obtain ⟨a, q, m⟩ := s
  obtain ⟨hb, hq⟩ := h
  simp only at hb hq
  cases q with
  | nil =>
    by_cases hge : m ≤ a - 1
    · simp [TileFetcher.completeStep, TileFetcher.runStep, TileFetcher.Inv, hge]
      omega
    · simp [TileFetcher.completeStep, TileFetcher.runStep, TileFetcher.Inv, hge]
      omega
  | cons x t =>
    have hsat : m ≤ a := hq (by simp)
    by_cases hge : m ≤ a - 1
    · simp [TileFetcher.completeStep, TileFetcher.runStep, TileFetcher.Inv, hge]
      omega
    · simp [TileFetcher.completeStep, TileFetcher.runStep, TileFetcher.Inv, hge]
      omega

theorem TileFetcher.reachable_inv {s : TileFetcher} (h : s.Reachable) : s.Inv := by
  induction h with
  | init max => exact ⟨Nat.zero_le _, fun hne => absurd rfl hne⟩
  | fetch job _ ih => exact TileFetcher.inv_fetchStep ih job
  | complete _ _ ih => exact TileFetcher.inv_completeStep ih

theorem TileFetcher.completeStep_measure {s : TileFetcher} (h : s.Inv)
    (ha : 0 < s.active) :
    s.completeStep.active + s.completeStep.queue.length + 1 =
      s.active + s.queue.length := by
  obtain ⟨a, q, m⟩ := s
  obtain ⟨hb, hq⟩ := h
  simp only at hb hq ha ⊢
  cases q with
  | nil =>
    by_cases hge : m ≤ a - 1
    · simp [TileFetcher.completeStep, TileFetcher.runStep, hge]
      omega
    · simp [TileFetcher.completeStep, TileFetcher.runStep, hge]
      omega
  | cons x t =>
    have hsat : m ≤ a := hq (by simp)
    by_cases hge : m ≤ a - 1
    · simp [TileFetcher.completeStep, TileFetcher.runStep, hge]
      omega
    · simp [TileFetcher.completeStep, TileFetcher.runStep, hge]
      omega

theorem TileFetcher.drain_drains :
    ∀ (n : Nat) (s : TileFetcher), s.Inv → 0 < s.MAX →
      s.active + s.queue.length ≤ n →
      (TileFetcher.drain s n).active = 0 ∧ (TileFetcher.drain s n).queue = [] := by
  intro n
  induction n with
  | zero =>
    intro s hinv _ hm
    obtain ⟨a, q, m⟩ := s
    simp only at hm
    simp only [TileFetcher.drain]
    exact ⟨by omega, List.length_eq_zero.mp (by omega)⟩
  | succ n ih =>
    intro s hinv hmax hm
    simp only [TileFetcher.drain]
    by_cases ha : 0 < s.active
    · have hinv' := TileFetcher.inv_completeStep hinv
      have hmeas := TileFetcher.completeStep_measure hinv ha
      have hmax' : 0 < s.completeStep.MAX := by
        rw [TileFetcher.completeStep_MAX]; exact hmax
      exact ih s.completeStep hinv' hmax' (by omega)
    · have haz : s.active = 0 := by omega
      have hqe : s.queue = [] := by
        by_contra hne
        have := hinv.2 hne
        omega
      have hql : s.queue.length = 0 := by simp [hqe]
      have hfix : s.completeStep = s := by
        obtain ⟨a, q, m⟩ := s
        simp only at haz hqe
        subst haz hqe
        unfold TileFetcher.completeStep TileFetcher.runStep
        split <;> rfl
      rw [hfix]
      exact ih s hinv hmax (by omega)

/-- C3: the bounded fetch queue never has more than its configured maximum
of simultaneously in-flight downloads; every completion decrements the
in-flight counter and starts the next queued job, so the outstanding work
(in-flight plus queued) shrinks by exactly one per completion, and a backlog
of `active + queue.length` jobs is fully drained by that many completions. -/
theorem c3_fetch_queue_bounded_and_drains (s : TileFetcher)
    (h : s.Reachable) :
    s.active ≤ s.MAX ∧
    (0 < s.active →
      s.completeStep.active + s.completeStep.queue.length + 1 =
        s.active + s.queue.length) ∧
    (0 < s.MAX →
      (TileFetcher.drain s (s.active + s.queue.length)).active = 0 ∧
      (TileFetcher.drain s (s.active + s.queue.length)).queue = []) := by
  have hinv := TileFetcher.reachable_inv h
  exact ⟨hinv.1, fun ha => TileFetcher.completeStep_measure hinv ha,
    fun hmax => TileFetcher.drain_drains _ s hinv hmax le_rfl⟩

/-- Witness for C3 at the concrete reachable state obtained by one `fetch`
call on a freshly constructed `TileFetcher(2)` (one download in flight,
empty queue). -/
theorem c3_fetch_queue_bounded_and_drains_witness :
    ({ active := 1, queue := [], MAX := 2 } : TileFetcher).active ≤
        ({ active := 1, queue := [], MAX := 2 } : TileFetcher).MAX ∧
    (0 < ({ active := 1, queue := [], MAX := 2 } : TileFetcher).active →
      ({ active := 1, queue := [], MAX := 2 } : TileFetcher).completeStep.active +
          ({ active := 1, queue := [], MAX := 2 } : TileFetcher).completeStep.queue.length + 1 =
        ({ active := 1, queue := [], MAX := 2 } : TileFetcher).active +
          ({ active := 1, queue := [], MAX := 2 } : TileFetcher).queue.length) ∧
    (0 < ({ active := 1, queue := [], MAX := 2 } : TileFetcher).MAX →
      (TileFetcher.drain { active := 1, queue := [], MAX := 2 }
          (({ active := 1, queue := [], MAX := 2 } : TileFetcher).active +
            ({ active := 1, queue := [], MAX := 2 } : TileFetcher).queue.length)).active = 0 ∧
      (TileFetcher.drain { active := 1, queue := [], MAX := 2 }
          (({ active := 1, queue := [], MAX := 2 } : TileFetcher).active +
            ({ active := 1, queue := [], MAX := 2 } : TileFetcher).queue.length)).queue = []) :=
  c3_fetch_queue_bounded_and_drains _
    (TileFetcher.Reachable.fetch 7 (TileFetcher.Reachable.init 2))

/-- C1: evaluating `InstanceLayer.distribute` at the failing input
`featureCount = 10`, `assetCount = 3` gives per-asset counts `{3,3,3}`, not
the `{4,3,3}` the claim states: the source computes the remainder as
`feature_size % feature_size`, which is always `0`, so the
remainder-distribution loop is dead code. -/
theorem c1_distribute_at_failing_input :
    distribute [0, 1, 2] 3 10 = [(0, 3), (1, 3), (2, 3)] ∧
    ¬ distribute [0, 1, 2] 3 10 = [(0, 4), (1, 3), (2, 3)] := by
  decide

/-! ## C9: `buildShadowMatrix` (src/unnamed/part_007, lines 72-99) and
`MaplibreShadowMesh.update` (src/unnamed/part_006, lines 23-52)

THREE.Matrix4 stores elements column-major: `m[4*col + row]`.  We model a
matrix as `Matrix (Fin 4) (Fin 4) ℚ` (row index first), so the assignment
`m[12] = v` of the source becomes entry `(0, 3) = v`.

Both source functions first normalize the incoming sun direction
(`sunDir.clone().normalize()`); normalization involves a square root, which
has no exact counterpart over `ℚ`, so the model takes the already-normalized
light direction as its argument.  Everything after the normalization is
translated verbatim.  The ground plane is `THREE.Plane((0,0,1), -planeZ)`,
i.e. `plane.normal = (0,0,1)` and `plane.constant = -planeZ`, and
`lightPos4D = (-d.x, -d.y, -d.z, 0)`. -/

structure Vec3Q where
  x : ℚ
  y : ℚ
  z : ℚ
  deriving DecidableEq, Repr

/-- The scalar `dot = plane.normal · lightPos4D.xyz − plane.constant · lightPos4D.w`
computed by the source (zero when the light direction is parallel to the
plane; the source applies no guard). -/
def shadowDot (lightDir : Vec3Q) (planeZ : ℚ) : ℚ :=
  let c : ℚ := -planeZ
  let lx := -lightDir.x
  let ly := -lightDir.y
  let lz := -lightDir.z
  let lw : ℚ := 0
  (0 * lx + 0 * ly + 1 * lz) - c * lw

def buildShadowMatrix (lightDir : Vec3Q) (planeZ : ℚ) :
    Matrix (Fin 4) (Fin 4) ℚ :=
  let nx : ℚ := 0
  let ny : ℚ := 0
  let nz : ℚ := 1
  let c : ℚ := -planeZ
  let lx := -lightDir.x
  let ly := -lightDir.y
  let lz := -lightDir.z
  let lw : ℚ := 0
  let dot := shadowDot lightDir planeZ
  Matrix.of
    ![![dot - lx * nx, -lx * ny, -lx * nz, -lx * -c],
      ![-ly * nx, dot - ly * ny, -ly * nz, -ly * -c],
      ![-lz * nx, -lz * ny, dot - lz * nz, -lz * -c],
      ![-lw * nx, -lw * ny, -lw * nz, dot - lw * -c]]

/-- `MaplibreShadowMesh.update`: rebuilds the same shadow matrix (the entry
assignments are duplicated in the source) and sets
`this.matrix = shadowMatrix * meshMatrix`, where `meshMatrix` aliases the
source mesh's `matrixWorld`, passed here as `meshWorld`. -/
def MaplibreShadowMesh.update (lightDir : Vec3Q) (planeZ : ℚ)
    (meshWorld : Matrix (Fin 4) (Fin 4) ℚ) : Matrix (Fin 4) (Fin 4) ℚ :=
  let nx : ℚ := 0
  let ny : ℚ := 0
  let nz : ℚ := 1
  let c : ℚ := -planeZ
  let lx := -lightDir.x
  let ly := -lightDir.y
  let lz := -lightDir.z
  let lw : ℚ := 0
  let dot := (0 * lx + 0 * ly + 1 * lz) - c * lw
  let shadowMatrix : Matrix (Fin 4) (Fin 4) ℚ :=
    Matrix.of
      ![![dot - lx * nx, -lx * ny, -lx * nz, -lx * -c],
        ![-ly * nx, dot - ly * ny, -ly * nz, -ly * -c],
        ![-lz * nx, -lz * ny, dot - lz * nz, -lz * -c],
        ![-lw * nx, -lw * ny, -lw * nz, dot - lw * -c]]
  shadowMatrix * meshWorld

/-- Modelled from the claim's words, for comparison: the standard plane/point
shadow-projection matrix `M = (P·L) I − L Pᵀ` for the homogeneous plane row
vector `P = (n.x, n.y, n.z, −planeConstant)` and homogeneous light `L`, with
the scalar `dot = plane·light − planeConstant·lightW`. -/
def shadowProjectionFormula (n : Fin 3 → ℚ) (planeConst : ℚ)
    (lightL : Fin 4 → ℚ) : Matrix (Fin 4) (Fin 4) ℚ :=
  let planeP : Fin 4 → ℚ := ![n 0, n 1, n 2, -planeConst]
  let dot := (n 0 * lightL 0 + n 1 * lightL 1 + n 2 * lightL 2) -
    planeConst * lightL 3
  dot • (1 : Matrix (Fin 4) (Fin 4) ℚ) - Matrix.vecMulVec lightL planeP

/-- C9: the planar-shadow matrix built by the source equals the standard
plane/point shadow-projection formula for the ground plane
`(0,0,1)·x + (−planeZ) = 0` and the homogeneous (point-at-infinity) light
`(−d.x, −d.y, −d.z, 0)`, with `dot = plane·light − planeConstant·lightW`;
no special case guards `dot = 0` (at the horizontal light `(1,0,0)` the dot
is zero and the same formula is still produced); and the shadow mesh's
matrix is this shadow matrix premultiplied with the source mesh's current
world matrix. -/
theorem c9_shadow_matrix_formula (d : Vec3Q) (planeZ : ℚ)
    (meshWorld : Matrix (Fin 4) (Fin 4) ℚ) :
    buildShadowMatrix d planeZ =
      shadowProjectionFormula ![0, 0, 1] (-planeZ) ![-d.x, -d.y, -d.z, 0] ∧
    MaplibreShadowMesh.update d planeZ meshWorld =
      buildShadowMatrix d planeZ * meshWorld ∧
    shadowDot ⟨1, 0, 0⟩ 0 = 0 ∧
    buildShadowMatrix ⟨1, 0, 0⟩ 0 =
      shadowProjectionFormula ![0, 0, 1] 0 ![-1, 0, 0, 0] := by
  refine ⟨?_, rfl, by norm_num [shadowDot], ?_⟩
  · ext i j
    fin_cases i <;> fin_cases j <;>
      simp [buildShadowMatrix, shadowProjectionFormula, shadowDot,
        Matrix.vecMulVec_apply, Matrix.one_apply, Matrix.smul_apply,
        Matrix.vecHead, Matrix.vecTail]
  · ext i j
    fin_cases i <;> fin_cases j <;>
      simp [buildShadowMatrix, shadowProjectionFormula, shadowDot,
        Matrix.vecMulVec_apply, Matrix.one_apply, Matrix.smul_apply,
        Matrix.vecHead, Matrix.vecTail]

/-! ## C4: `InstancedGroupMesh` (src/unnamed/part_008)

A submesh occurrence of the source asset: `geomId`/`matId` stand for
`mesh.geometry.uuid` and `mesh.material.uuid` (the source keys buffers by
the string `geometry.uuid + "/" + material.uuid`); `matrix` is `mesh.matrix`,
the node's transform relative to its parent; `parentWorld` is the product of
the local matrices of its ancestors strictly between the group root and the
mesh (so `parentWorld * matrix` is the occurrence's local-to-root
transform). -/

structure SubMesh where
  geomId : Nat
  matId : Nat
  matrix : Matrix (Fin 4) (Fin 4) ℚ
  parentWorld : Matrix (Fin 4) (Fin 4) ℚ

def SubMesh.uuid (m : SubMesh) : Nat × Nat := (m.geomId, m.matId)

/-- The occurrence's local-to-root transform inside the source asset. -/
def SubMesh.localToRoot (m : SubMesh) : Matrix (Fin 4) (Fin 4) ℚ :=
  m.parentWorld * m.matrix

/-- The constructor's traversal: group the asset's submeshes by
`(geometry, material)` uuid.  JS `Record` string keys iterate in insertion
order; `meshCollect[uuid].push(mesh)` appends in traversal order. -/
def collectMeshes (group : List SubMesh) :
    List ((Nat × Nat) × List SubMesh) :=
  group.foldl
    (fun acc mesh =>
      if acc.any (fun e => e.1 = mesh.uuid) then
        acc.map (fun e => if e.1 = mesh.uuid then (e.1, e.2 ++ [mesh]) else e)
      else acc ++ [(mesh.uuid, [mesh])])
    []

structure InstancedGroupMesh where
  count : Nat
  meshCollect : List ((Nat × Nat) × List SubMesh)

/-- `new InstancedGroupMesh(group, count)`: collects the submeshes and, for
each distinct uuid, allocates an instance buffer of capacity
`meshes.length * count` (matrices beyond the capacity are silently dropped
by the `Float32Array` backing store, modelled in `writeSlotsAux`). -/
def InstancedGroupMesh.ofGroup (group : List SubMesh) (count : Nat) :
    InstancedGroupMesh :=
  { count := count, meshCollect := collectMeshes group }

/-- The inner `collect.forEach((mesh, i) => ...)` loop of `setMatrixAt`:
starting at occurrence counter `i`, write
`buf[len * index + i] = matrix * mesh.matrix` (the source copies
`mesh.matrix` and `premultiply`s the instance matrix) for each remaining
occurrence, dropping writes beyond the buffer capacity. -/
def writeSlotsAux (len index : Nat) (matrix : Matrix (Fin 4) (Fin 4) ℚ)
    (cap : Nat) : Nat → List SubMesh → (Nat → Option (Matrix (Fin 4) (Fin 4) ℚ)) →
    Nat → Option (Matrix (Fin 4) (Fin 4) ℚ)
  | _, [], buf => buf
  | i, mesh :: rest, buf =>
      writeSlotsAux len index matrix cap (i + 1) rest
        (if len * index + i < cap then
          Function.update buf (len * index + i) (some (matrix * mesh.matrix))
        else buf)

def writeSlots (collect : List SubMesh) (index : Nat)
    (matrix : Matrix (Fin 4) (Fin 4) ℚ) (cap : Nat)
    (buf : Nat → Option (Matrix (Fin 4) (Fin 4) ℚ)) :
    Nat → Option (Matrix (Fin 4) (Fin 4) ℚ) :=
  writeSlotsAux collect.length index matrix cap 0 collect buf

/-- `InstancedGroupMesh.setMatrixAt(index, matrix)`: for every uuid, for
every occurrence `i` of that uuid, write the premultiplied matrix into slot
`collect.length * index + i` of that uuid's instance buffer.  The buffers
are modelled as a function from uuid and slot to the optional matrix
stored there. -/
def InstancedGroupMesh.setMatrixAt (g : InstancedGroupMesh) (index : Nat)
    (matrix : Matrix (Fin 4) (Fin 4) ℚ)
    (buffers : (Nat × Nat) → Nat → Option (Matrix (Fin 4) (Fin 4) ℚ)) :
    (Nat × Nat) → Nat → Option (Matrix (Fin 4) (Fin 4) ℚ) :=
  g.meshCollect.foldl
    (fun bufs e =>
      Function.update bufs e.1
        (writeSlots e.2 index matrix (e.2.length * g.count) (bufs e.1)))
    buffers

/-- The concrete asset refuting C4 as stated: a single mesh whose parent
node inside the asset carries a non-identity (translation) transform. -/
def c4translation : Matrix (Fin 4) (Fin 4) ℚ :=
  Matrix.of
    ![![1, 0, 0, 1], ![0, 1, 0, 0], ![0, 0, 1, 0], ![0, 0, 0, 1]]

def c4mesh : SubMesh :=
  { geomId := 0, matId := 0, matrix := 1, parentWorld := c4translation }

theorem writeSlotsAux_lt (len index : Nat)
    (matrix : Matrix (Fin 4) (Fin 4) ℚ) (cap : Nat) :
    ∀ (rest : List SubMesh) (i : Nat)
      (buf : Nat → Option (Matrix (Fin 4) (Fin 4) ℚ)) (s : Nat),
      s < len * index + i →
      writeSlotsAux len index matrix cap i rest buf s = buf s := by
  intro rest
  induction rest with
  | nil => intro i buf s _; rfl
  | cons mesh rest ih =>
    intro i buf s hs
    simp only [writeSlotsAux]
    rw [ih (i + 1) _ s (by omega)]
    split
    · exact Function.update_noteq (by omega) _ _
    · rfl

theorem writeSlotsAux_get (len index : Nat)
    (matrix : Matrix (Fin 4) (Fin 4) ℚ) (cap : Nat) :
    ∀ (rest : List SubMesh) (i : Nat)
      (buf : Nat → Option (Matrix (Fin 4) (Fin 4) ℚ))
      (k : Nat) (hk : k < rest.length),
      len * index + i + k < cap →
      writeSlotsAux len index matrix cap i rest buf (len * index + i + k) =
        some (matrix * (rest.get ⟨k, hk⟩).matrix) := by
  intro rest
  induction rest with
  | nil => intro i buf k hk; exact absurd hk (by simp)
  | cons mesh rest ih =>
    intro i buf k hk hcap
    cases k with
    | zero =>
      simp only [writeSlotsAux, Nat.add_zero]
      rw [writeSlotsAux_lt len index matrix cap rest (i + 1) _ _ (by omega)]
      rw [if_pos (by omega)]
      rw [Function.update_same]
      rfl
    | succ k =>
      simp only [writeSlotsAux]
      have harith : len * index + i + (k + 1) = len * index + (i + 1) + k := by
        omega
      rw [harith]
      rw [ih (i + 1) _ k (by simpa using Nat.lt_of_succ_lt_succ hk) (by omega)]
      rfl

theorem setMatrixAtFold_not_mem (index count : Nat)
    (matrix : Matrix (Fin 4) (Fin 4) ℚ) :
    ∀ (mc : List ((Nat × Nat) × List SubMesh))
      (bufs : (Nat × Nat) → Nat → Option (Matrix (Fin 4) (Fin 4) ℚ))
      (u : Nat × Nat), u ∉ mc.map Prod.fst →
      (mc.foldl
        (fun bufs e => Function.update bufs e.1
          (writeSlots e.2 index matrix (e.2.length * count) (bufs e.1)))
        bufs) u = bufs u := by
  intro mc
  induction mc with
  | nil => intro bufs u _; rfl
  | cons e rest ih =>
    intro bufs u hu
    simp only [List.map_cons, List.mem_cons, not_or] at hu
    simp only [List.foldl_cons]
    rw [ih _ u hu.2]
    exact Function.update_noteq hu.1 _ _

theorem setMatrixAtFold_mem (index count : Nat)
    (matrix : Matrix (Fin 4) (Fin 4) ℚ) :
    ∀ (mc : List ((Nat × Nat) × List SubMesh))
      (bufs : (Nat × Nat) → Nat → Option (Matrix (Fin 4) (Fin 4) ℚ))
      (u : Nat × Nat) (collect : List SubMesh),
      (mc.map Prod.fst).Nodup → (u, collect) ∈ mc →
      (mc.foldl
        (fun bufs e => Function.update bufs e.1
          (writeSlots e.2 index matrix (e.2.length * count) (bufs e.1)))
        bufs) u =
        writeSlots collect index matrix (collect.length * count) (bufs u) := by
  intro mc
  induction mc with
  | nil => intro bufs u collect _ hmem; exact absurd hmem (by simp)
  | cons e rest ih =>
    intro bufs u collect hnd hmem
    have hnd0 : (e.1 :: rest.map Prod.fst).Nodup := by simpa using hnd
    have hnd' := List.nodup_cons.mp hnd0
    simp only [List.foldl_cons]
    rcases List.mem_cons.mp hmem with heq | hmem'
    · subst heq
      rw [setMatrixAtFold_not_mem index count matrix rest _ u hnd'.1]
      rw [Function.update_same]
    · have hukey : u ∈ rest.map Prod.fst :=
        List.mem_map.mpr ⟨(u, collect), hmem', rfl⟩
      have hne : u ≠ e.1 := fun h => hnd'.1 (h ▸ hukey)
      rw [ih _ u collect hnd'.2 hmem']
      rw [Function.update_noteq hne]

theorem collectMeshes_step_keys (acc : List ((Nat × Nat) × List SubMesh))
    (mesh : SubMesh) :
    ((acc.map fun e =>
        if e.1 = mesh.uuid then (e.1, e.2 ++ [mesh]) else e).map Prod.fst) =
      acc.map Prod.fst := by
  induction acc with
  | nil => rfl
  | cons e rest ih =>
    simp only [List.map_cons, ih]
    congr 1
    split <;> rfl

theorem collectMeshes_keys_nodup (group : List SubMesh) :
    ((collectMeshes group).map Prod.fst).Nodup := by
  suffices h : ∀ (g : List SubMesh) (acc : List ((Nat × Nat) × List SubMesh)),
      (acc.map Prod.fst).Nodup →
      ((g.foldl
        (fun acc mesh =>
          if acc.any (fun e => e.1 = mesh.uuid) then
            acc.map (fun e => if e.1 = mesh.uuid then (e.1, e.2 ++ [mesh]) else e)
          else acc ++ [(mesh.uuid, [mesh])]) acc).map Prod.fst).Nodup by
    exact h group [] (by simp)
  intro g
  induction g with
  | nil => intro acc h; exact h
  | cons mesh rest ih =>
    intro acc h
    simp only [List.foldl_cons]
    by_cases hany : acc.any (fun e => decide (e.1 = mesh.uuid))
    · rw [if_pos hany]
      exact ih _ (by rw [collectMeshes_step_keys]; exact h)
    · rw [if_neg hany]
      refine ih _ ?_
      simp only [List.any_eq_true, decide_eq_true_eq, not_exists, not_and] at hany
      simp only [List.map_append, List.map_cons, List.map_nil]
      rw [List.nodup_append]
      refine ⟨h, List.nodup_singleton _, ?_⟩
      intro a ha hb
      simp only [List.mem_singleton] at hb
      subst hb
      obtain ⟨e, hemem, hefst⟩ := List.mem_map.mp ha
      exact hany e hemem hefst

/-- C4 counterexample: for an asset whose single mesh sits under a parent
node carrying a translation (`c4mesh.parentWorld = c4translation ≠ 1`),
`setMatrixAt(0, I)` writes `I * mesh.matrix = 1` into the occurrence's slot,
not the product `I * (occurrence's local-to-root transform)` the claim
states: the source premultiplies `mesh.matrix` (the transform relative to
the parent), not the local-to-root transform. -/
theorem c4_set_matrix_at_counterexample :
    ¬ (InstancedGroupMesh.ofGroup [c4mesh] 1).setMatrixAt 0 1 (fun _ _ => none)
        (0, 0) 0 =
      some (1 * c4mesh.localToRoot) := by
  have hval : (InstancedGroupMesh.ofGroup [c4mesh] 1).setMatrixAt 0 1
      (fun _ _ => none) (0, 0) 0 = some 1 := by
    simp [InstancedGroupMesh.setMatrixAt, InstancedGroupMesh.ofGroup,
      collectMeshes, writeSlots, writeSlotsAux, SubMesh.uuid, c4mesh,
      Function.update]
  rw [hval]
  intro h
  have h2 := congrArg (fun o => (o.getD 0) 0 3) h
  simp [c4mesh, SubMesh.localToRoot, c4translation] at h2

/-- C4 (amended): for every asset, instance index `index < count` and matrix
`M`, `setMatrixAt(index, M)` writes, into the slot of each occurrence of
each distinct `(geometry, material)` pair, the product of `M` with that
occurrence's own local matrix `mesh.matrix` (its transform relative to its
parent); when every ancestor of the occurrence below the group root carries
the identity transform — as arranged by `bakeWorldAndConvertYupToZup` for
the assets this class is used with — this equals the product of `M` with
the occurrence's local-to-root transform. -/
theorem c4_set_matrix_at_premultiplies (group : List SubMesh)
    (count index : Nat) (matrix : Matrix (Fin 4) (Fin 4) ℚ)
    (buffers : (Nat × Nat) → Nat → Option (Matrix (Fin 4) (Fin 4) ℚ))
    (u : Nat × Nat) (collect : List SubMesh)
    (hmem : (u, collect) ∈ (InstancedGroupMesh.ofGroup group count).meshCollect)
    (k : Nat) (hk : k < collect.length) (hidx : index < count) :
    (InstancedGroupMesh.ofGroup group count).setMatrixAt index matrix buffers u
        (collect.length * index + k) =
      some (matrix * (collect.get ⟨k, hk⟩).matrix) ∧
    ((collect.get ⟨k, hk⟩).parentWorld = 1 →
      (InstancedGroupMesh.ofGroup group count).setMatrixAt index matrix
          buffers u (collect.length * index + k) =
        some (matrix * (collect.get ⟨k, hk⟩).localToRoot)) := by
  have hnodup : (((InstancedGroupMesh.ofGroup group count).meshCollect).map
      Prod.fst).Nodup := collectMeshes_keys_nodup group
  have hcap : collect.length * index + k < collect.length * count := by
    have h1 : collect.length * (index + 1) ≤ collect.length * count :=
      Nat.mul_le_mul_left _ hidx
    have h2 : collect.length * (index + 1) =
        collect.length * index + collect.length := by ring
    omega
  have hmem' : (u, collect) ∈ collectMeshes group := hmem
  have hnodup' : ((collectMeshes group).map Prod.fst).Nodup := hnodup
  have h1 : (InstancedGroupMesh.ofGroup group count).setMatrixAt index matrix
      buffers u (collect.length * index + k) =
      some (matrix * (collect.get ⟨k, hk⟩).matrix) := by
    show ((collectMeshes group).foldl
        (fun bufs e => Function.update bufs e.1
          (writeSlots e.2 index matrix (e.2.length * count) (bufs e.1)))
        buffers) u (collect.length * index + k) = _
    rw [setMatrixAtFold_mem index count matrix _ buffers u collect hnodup' hmem']
    show writeSlotsAux collect.length index matrix _ 0 collect _ _ = _
    have h0 : collect.length * index + k = collect.length * index + 0 + k := by
      omega
    rw [h0]
    exact writeSlotsAux_get collect.length index matrix _ collect 0 _ k hk
      (by omega)
  refine ⟨h1, fun hpw => ?_⟩
  rw [h1, SubMesh.localToRoot, hpw, one_mul]

/-- A submesh occurrence directly under the group root (identity ancestors),
used to witness C4's amended theorem. -/
def c4idMesh : SubMesh :=
  { geomId := 0, matId := 0, matrix := c4translation, parentWorld := 1 }

/-- Witness for C4's amended theorem at the concrete one-mesh asset
`[c4idMesh]` with `count = 1`, `index = 0`, `M = 1`. -/
theorem c4_set_matrix_at_premultiplies_witness :
    (InstancedGroupMesh.ofGroup [c4idMesh] 1).setMatrixAt 0 1 (fun _ _ => none)
        (0, 0) (([c4idMesh] : List SubMesh).length * 0 + 0) =
      some (1 * (([c4idMesh] : List SubMesh).get ⟨0, by simp⟩).matrix) ∧
    ((([c4idMesh] : List SubMesh).get ⟨0, by simp⟩).parentWorld = 1 →
      (InstancedGroupMesh.ofGroup [c4idMesh] 1).setMatrixAt 0 1
          (fun _ _ => none) (0, 0) (([c4idMesh] : List SubMesh).length * 0 + 0) =
        some (1 * (([c4idMesh] : List SubMesh).get ⟨0, by simp⟩).localToRoot)) :=
  c4_set_matrix_at_premultiplies [c4idMesh] 1 0 1 (fun _ _ => none) (0, 0)
    [c4idMesh]
    (by simp [InstancedGroupMesh.ofGroup, collectMeshes, SubMesh.uuid, c4idMesh])
    0 (by simp) (by omega)

/-! ## C10: `reverseFaceWinding` (src/unnamed/part_005, lines 50-104)

The indexed branch swaps `indices[i]` and `indices[i+2]` for
`i = 0, 3, 6, ...` while `i < indices.length`.  The index array is an
integer typed array (`Uint16Array`/`Uint32Array`).  When the length is not
a multiple of 3, the final iteration reads past the end (an out-of-range
typed-array read yields `undefined`) and writes it back (storing
`undefined` in an integer typed array coerces through `NaN` to `0`), while
the store past the end is silently dropped.  `revIndexAux` reproduces these
JavaScript semantics. -/

def revIndexAux : List Nat → List Nat
  | a :: b :: c :: rest => c :: b :: a :: revIndexAux rest
  | [_, b] => [0, b]
  | [_] => [0]
  | [] => []

/-- A float attribute of a non-indexed geometry (`Float32Array` modelled
over `ℚ`). -/
structure BufferAttribute where
  itemSize : Nat
  array : List ℚ
  deriving DecidableEq, Repr

/-- The attribute branch of `reverseFaceWinding`: per block of
`3 * itemSize` consecutive values (one triangle), swap the first vertex's
values with the third's.  A trailing partial block would make the source
read and write past the end of the `Float32Array` (producing `NaN`s, which
`ℚ` cannot represent); the model leaves such a tail unchanged, and the
theorems below only apply to arrays holding a whole number of triangles,
where the two semantics coincide.  (`itemSize = 0` would not terminate in
the source; the model returns the array unchanged.) -/
def revBlocks (k : Nat) (l : List ℚ) : List ℚ :=
  if k = 0 ∨ l.length < 3 * k then l
  else
    ((l.drop (2 * k)).take k ++ ((l.drop k).take k) ++ l.take k) ++
      revBlocks k (l.drop (3 * k))
termination_by l.length
decreasing_by
  simp only [List.length_drop]
  omega

structure BufferGeometry where
  index : Option (List Nat)
  position : Option BufferAttribute
  normal : Option BufferAttribute
  uv : Option BufferAttribute
  deriving DecidableEq, Repr

/-- `reverseFaceWinding(geometry)`: if the geometry has an index, swap the
winding in the index and return (the attributes are untouched); otherwise
swap each present attribute's array in blocks of `itemSize * 3`. -/
def reverseFaceWinding (g : BufferGeometry) : BufferGeometry :=
  match g.index with
  | some idx => { g with index := some (revIndexAux idx) }
  | none =>
      { g with
        position := g.position.map fun a =>
          { a with array := revBlocks a.itemSize a.array },
        normal := g.normal.map fun a =>
          { a with array := revBlocks a.itemSize a.array },
        uv := g.uv.map fun a =>
          { a with array := revBlocks a.itemSize a.array } }

theorem revIndexAux_invol :
    ∀ (l : List Nat), l.length % 3 = 0 → revIndexAux (revIndexAux l) = l
  | [], _ => rfl
  | [_], h => absurd h (by simp)
  | [_, _], h => absurd h (by simp)
  | a :: b :: c :: rest, h => by
      simp only [revIndexAux]
      rw [revIndexAux_invol rest (by simp at h; omega)]

theorem revBlocks_of_lt {k : Nat} {l : List ℚ} (h : l.length < 3 * k) :
    revBlocks k l = l := by
  unfold revBlocks
  rw [if_pos (Or.inr h)]

theorem revBlocks_of_ge {k : Nat} {l : List ℚ} (hk : k ≠ 0)
    (h : 3 * k ≤ l.length) :
    revBlocks k l =
      ((l.drop (2 * k)).take k ++ ((l.drop k).take k) ++ l.take k) ++
        revBlocks k (l.drop (3 * k)) := by
  conv_lhs => rw [revBlocks]
  rw [if_neg (by push_neg; exact ⟨hk, by omega⟩)]

theorem revBlocks_length (k : Nat) (l : List ℚ) :
    (revBlocks k l).length = l.length := by
  by_cases h : k = 0 ∨ l.length < 3 * k
  · unfold revBlocks
    rw [if_pos h]
  · push_neg at h
    obtain ⟨hk0, hge⟩ := h
    rw [revBlocks_of_ge hk0 (by omega)]
    have hrec := revBlocks_length k (l.drop (3 * k))
    simp only [List.length_append, List.length_take, List.length_drop,
      hrec]
    omega
termination_by l.length
decreasing_by simp only [List.length_drop]; omega

theorem revBlocks_invol (k : Nat) (hk : 0 < k) (l : List ℚ)
    (hdvd : (3 * k) ∣ l.length) :
    revBlocks k (revBlocks k l) = l := by
  by_cases hlt : l.length < 3 * k
  · have h0 : l.length = 0 := by
      rcases hdvd with ⟨c, hc⟩
      rcases Nat.eq_zero_or_pos c with rfl | hc1
      · omega
      · exfalso
        have h3 : 3 * k * 1 ≤ 3 * k * c := Nat.mul_le_mul_left _ hc1
        omega
    have hnil : l = [] := List.length_eq_zero.mp h0
    subst hnil
    have hnilrw : revBlocks k [] = [] := revBlocks_of_lt (by simp; omega)
    rw [hnilrw, hnilrw]
  · push_neg at hlt
    have hk0 : k ≠ 0 := by omega
    have hA : (l.take k).length = k := by
      simp only [List.length_take]; omega
    have hB : ((l.drop k).take k).length = k := by
      simp only [List.length_take, List.length_drop]; omega
    have hC : ((l.drop (2 * k)).take k).length = k := by
      simp only [List.length_take, List.length_drop]; omega
    rw [revBlocks_of_ge hk0 hlt]
    set A := l.take k with hAdef
    set B := (l.drop k).take k with hBdef
    set C := (l.drop (2 * k)).take k with hCdef
    set R := revBlocks k (l.drop (3 * k)) with hRdef
    have hS : C ++ B ++ A ++ R = C ++ (B ++ (A ++ R)) := by
      simp [List.append_assoc]
    have hlen : (C ++ B ++ A ++ R).length = l.length := by
      have hRlen : R.length = (l.drop (3 * k)).length := revBlocks_length _ _
      simp only [List.length_append, hA, hB, hC, hRlen, List.length_drop]
      omega
    rw [revBlocks_of_ge hk0 (by rw [hlen]; omega)]
    have htake : (C ++ B ++ A ++ R).take k = C := by
      rw [hS]; exact List.take_left' hC
    have hdrop1 : (C ++ B ++ A ++ R).drop k = B ++ (A ++ R) := by
      rw [hS]; exact List.drop_left' hC
    have hdrop2 : (C ++ B ++ A ++ R).drop (2 * k) = A ++ R := by
      have h2 : 2 * k = k + k := by omega
      rw [h2, ← List.drop_drop, hdrop1]
      exact List.drop_left' hB
    have hdrop3 : (C ++ B ++ A ++ R).drop (3 * k) = R :=
      List.drop_left'
        (by simp only [List.length_append, hA, hB, hC]; omega)
    rw [htake, hdrop1, hdrop2, hdrop3]
    rw [List.take_left' hB, List.take_left' hA]
    have hrest : revBlocks k R = l.drop (3 * k) := by
      rw [hRdef]
      exact revBlocks_invol k hk (l.drop (3 * k))
        (by rcases hdvd with ⟨c, hc⟩
            refine ⟨c - 1, ?_⟩
            simp only [List.length_drop]
            have hc1 : 1 ≤ c := by
              rcases Nat.eq_zero_or_pos c with rfl | h1
              · omega
              · exact h1
            have : 3 * k * c = 3 * k * (c - 1) + 3 * k * 1 := by
              rw [← Nat.mul_add]
              congr 1
              omega
            omega)
    rw [hrest]
    have hfront : A ++ B ++ C = l.take (3 * k) := by
      have h3 : 3 * k = k + (k + k) := by omega
      rw [h3, List.take_add, List.take_add, List.drop_drop]
      have h2 : k + k = 2 * k := by omega
      simp only [← hAdef, ← hBdef]
      rw [h2, ← hCdef, List.append_assoc]
    calc A ++ B ++ C ++ l.drop (3 * k)
        = (A ++ B ++ C) ++ l.drop (3 * k) := by simp [List.append_assoc]
      _ = l.take (3 * k) ++ l.drop (3 * k) := by rw [hfront]
      _ = l := List.take_append_drop _ _
termination_by l.length
decreasing_by simp only [List.length_drop]; omega

theorem attrRev_invol (a : BufferAttribute) (h1 : 0 < a.itemSize)
    (h2 : (3 * a.itemSize) ∣ a.array.length) :
    ({ itemSize := a.itemSize,
       array := revBlocks a.itemSize (revBlocks a.itemSize a.array) } :
        BufferAttribute) = a := by
  obtain ⟨k, arr⟩ := a
  simp only at h1 h2 ⊢
  rw [revBlocks_invol k h1 arr h2]

/-- C10 counterexample: for the indexed geometry whose index is `[5]` (one
entry, not a whole number of triangles), the JavaScript swap loop reads past
the end of the integer index array (yielding `undefined`, stored as `0`)
and drops the write past the end, so applying `reverseFaceWinding` twice
yields index `[0]`, not the original `[5]`. -/
theorem c10_reverse_face_winding_counterexample :
    ¬ reverseFaceWinding
        (reverseFaceWinding ⟨some [5], none, none, none⟩) =
      (⟨some [5], none, none, none⟩ : BufferGeometry) := by
  decide

/-- C10 (amended): `reverseFaceWinding` is an involution on every indexed
buffer geometry whose index holds a whole number of triangles (index length
divisible by 3), and on every non-indexed geometry whose position/normal/uv
attributes have positive item size and hold a whole number of triangles
(array length divisible by `3 * itemSize`). -/
theorem c10_reverse_face_winding_involutive (g : BufferGeometry)
    (hidx : ∀ idx, g.index = some idx → idx.length % 3 = 0)
    (hpos : ∀ a, g.position = some a →
      0 < a.itemSize ∧ (3 * a.itemSize) ∣ a.array.length)
    (hnorm : ∀ a, g.normal = some a →
      0 < a.itemSize ∧ (3 * a.itemSize) ∣ a.array.length)
    (huv : ∀ a, g.uv = some a →
      0 < a.itemSize ∧ (3 * a.itemSize) ∣ a.array.length) :
    reverseFaceWinding (reverseFaceWinding g) = g := by
  obtain ⟨i?, p?, n?, u?⟩ := g
  cases i? with
  | some idx =>
    simp only [reverseFaceWinding]
    rw [revIndexAux_invol idx (hidx idx rfl)]
  | none =>
    have hcomp : ∀ (o : Option BufferAttribute),
        (∀ a, o = some a →
          0 < a.itemSize ∧ (3 * a.itemSize) ∣ a.array.length) →
        ((o.map fun a =>
            { a with array := revBlocks a.itemSize a.array }).map
          fun a => { a with array := revBlocks a.itemSize a.array }) = o := by
      intro o ho
      cases o with
      | none => rfl
      | some a =>
        obtain ⟨h1, h2⟩ := ho a rfl
        simp only [Option.map_some']
        exact congrArg some (attrRev_invol a h1 h2)
    simp only [reverseFaceWinding]
    rw [hcomp p? hpos, hcomp n? hnorm, hcomp u? huv]

/-- Witness for C10's amended theorem at the concrete indexed geometry with
index `[2, 5, 7]` (one whole triangle). -/
theorem c10_reverse_face_winding_involutive_witness :
    reverseFaceWinding
        (reverseFaceWinding ⟨some [2, 5, 7], none, none, none⟩) =
      (⟨some [2, 5, 7], none, none, none⟩ : BufferGeometry) :=
  c10_reverse_face_winding_involutive ⟨some [2, 5, 7], none, none, none⟩
    (fun idx h => by
      obtain rfl : [2, 5, 7] = idx := by simpa using h
      decide)
    (fun a h => by cases h) (fun a h => by cases h) (fun a h => by cases h)

/-! ## C2 / C6: `ModelLayer` tile cache and asynchronous load pipeline
(src/unnamed/part_011)

Operational model of the `ModelLayer` tile pipeline.  An entry carries the
two state fields of `TileCacheEntry` plus Booleans recording whether
`entry.objects` and `entry.sceneTile`/`entry.overScaledTileID` have been
written; `disposedEver` is a ghost flag set exactly when the LRU `dispose`
hook marks a still-downloading entry `disposed` (it is never cleared, so it
identifies "entries evicted while their fetch was in flight" across later
steps).  Entries are identified by their index in `entries` (completion
handlers close over the entry object itself, not over its cache key);
`cache` maps tile keys to entry indices and `inflight` lists the entries
whose `requestAndParseTile` has neither resolved nor rejected yet. -/

inductive TileState
  | preparing
  | loaded
  | notSupport
  | error
  deriving DecidableEq, Repr

inductive DownloadState
  | downloading
  | loaded
  | disposed
  deriving DecidableEq, Repr

structure MLEntry where
  state : TileState
  stateDownload : DownloadState
  hasObjects : Bool
  hasScene : Bool
  disposedEver : Bool
  deriving DecidableEq, Repr

/-- Update the element at position `n` (no-op when out of range). -/
def updateAt {α : Type} : List α → Nat → (α → α) → List α
  | [], _, _ => []
  | e :: rest, 0, f => f e :: rest
  | e :: rest, n + 1, f => e :: updateAt rest n f

def cacheLookup : List (Nat × Nat) → Nat → Option Nat
  | [], _ => none
  | (k, v) :: rest, key => if k = key then some v else cacheLookup rest key

def cacheRemove : List (Nat × Nat) → Nat → List (Nat × Nat)
  | [], _ => []
  | (k, v) :: rest, key =>
      if k = key then cacheRemove rest key
      else (k, v) :: cacheRemove rest key

structure MLState where
  entries : List MLEntry
  cache : List (Nat × Nat)
  inflight : List Nat
  deriving DecidableEq, Repr

/-- The cache-miss branch of `ensureTiles` for one tile key: if the key is
cached, nothing is mutated (no re-fetch, whatever the entry's state);
otherwise a fresh entry is created in `preparing`/`downloading` state,
cached under the key, and its `requestAndParseTile` is started. -/
def MLState.ensureMiss (s : MLState) (key : Nat) : MLState :=
  if (cacheLookup s.cache key).isSome then s
  else
    { entries := s.entries ++
        [{ state := .preparing, stateDownload := .downloading,
           hasObjects := false, hasScene := false, disposedEver := false }],
      cache := s.cache ++ [(key, s.entries.length)],
      inflight := s.inflight ++ [s.entries.length] }

/-- LRU eviction of `key`: the `dispose` hook marks the entry `disposed`
if it is still `downloading`, and the binding leaves the cache. -/
def MLState.evict (s : MLState) (key : Nat) : MLState :=
  match cacheLookup s.cache key with
  | none => s
  | some eid =>
      { s with
        cache := cacheRemove s.cache key,
        entries := updateAt s.entries eid fun e =>
          if e.stateDownload = .disposed ∨ e.stateDownload = .loaded then e
          else { e with stateDownload := .disposed, disposedEver := true } }

/-- Resolution of `requestAndParseTile` for entry `eid`: the handler first
checks `entry.stateDownload === "disposed"` and returns without writing;
otherwise, if the requested source layer is absent it marks the entry
`not-support`, else it writes the parsed feature list, a fresh sub-scene
and the tile id, and the entry becomes `loaded`. -/
def MLState.completeOk (s : MLState) (eid : Nat) (hasLayer : Bool) :
    MLState :=
  if eid ∈ s.inflight then
    { s with
      inflight := s.inflight.erase eid,
      entries := updateAt s.entries eid fun e =>
        if e.stateDownload = .disposed then e
        else if hasLayer then
          { e with
              hasObjects := true
              hasScene := true
              state := .loaded
              stateDownload := .loaded }
        else { e with state := .notSupport, stateDownload := .loaded } }
  else s

/-- Rejection of `requestAndParseTile` (network or parse error): the
`.catch` handler in `ensureTiles` logs and sets
`entry.state = "error"; entry.stateDownload = "loaded"` unconditionally. -/
def MLState.completeErr (s : MLState) (eid : Nat) : MLState :=
  if eid ∈ s.inflight then
    { s with
      inflight := s.inflight.erase eid,
      entries := updateAt s.entries eid fun e =>
        { e with state := .error, stateDownload := .loaded } }
  else s

inductive MLState.Reachable : MLState → Prop
  | init : MLState.Reachable { entries := [], cache := [], inflight := [] }
  | ensure {s : MLState} (key : Nat) :
      MLState.Reachable s → MLState.Reachable (s.ensureMiss key)
  | evict {s : MLState} (key : Nat) :
      MLState.Reachable s → MLState.Reachable (s.evict key)
  | ok {s : MLState} (eid : Nat) (hasLayer : Bool) :
      MLState.Reachable s → MLState.Reachable (s.completeOk eid hasLayer)
  | err {s : MLState} (eid : Nat) :
      MLState.Reachable s → MLState.Reachable (s.completeErr eid)

theorem updateAt_length {α : Type} :
    ∀ (l : List α) (n : Nat) (f : α → α), (updateAt l n f).length = l.length
  | [], _, _ => rfl
  | _ :: rest, 0, f => rfl
  | e :: rest, n + 1, f => by
      simp only [updateAt, List.length_cons, updateAt_length rest n f]

theorem updateAt_get? {α : Type} :
    ∀ (l : List α) (n : Nat) (f : α → α) (i : Nat),
      (updateAt l n f).get? i =
        if i = n then (l.get? i).map f else l.get? i
  | [], n, f, i => by
      simp only [updateAt, List.get?_nil, Option.map_none']
      split <;> rfl
  | e :: rest, 0, f, 0 => rfl
  | e :: rest, 0, f, i + 1 => by
      simp [updateAt]
  | e :: rest, n + 1, f, 0 => by
      simp [updateAt]
  | e :: rest, n + 1, f, i + 1 => by
      simp only [updateAt, List.get?_cons_succ, updateAt_get? rest n f i]
      split <;> split <;> first | rfl | omega

theorem get?_some_lt {α : Type} {l : List α} {i : Nat} {a : α}
    (h : l.get? i = some a) : i < l.length := by
  by_contra hc
  push_neg at hc
  rw [List.get?_len_le hc] at h
  exact absurd h (by simp)

theorem get?_append_single {α : Type} :
    ∀ (l : List α) (x : α) (i : Nat),
      (l ++ [x]).get? i =
        if i < l.length then l.get? i
        else if i = l.length then some x else none
  | [], x, 0 => rfl
  | [], x, i + 1 => by simp
  | e :: rest, x, 0 => by simp
  | e :: rest, x, i + 1 => by
      simp only [List.cons_append, List.get?_cons_succ,
        get?_append_single rest x i, List.length_cons,
        Nat.add_lt_add_iff_right, Nat.add_right_cancel_iff]

theorem cacheLookup_none_append (c : List (Nat × Nat)) (key v : Nat)
    (h : cacheLookup c key = none) :
    cacheLookup (c ++ [(key, v)]) key = some v := by
  induction c with
  | nil => simp [cacheLookup]
  | cons p rest ih =>
    obtain ⟨k, w⟩ := p
    by_cases hk : k = key
    · rw [cacheLookup] at h
      rw [if_pos hk] at h
      exact absurd h (by simp)
    · rw [cacheLookup] at h
      rw [if_neg hk] at h
      simp only [List.cons_append, cacheLookup]
      rw [if_neg hk]
      exact ih h

theorem cacheRemove_lookup (c : List (Nat × Nat)) (key : Nat) :
    cacheLookup (cacheRemove c key) key = none := by
  induction c with
  | nil => rfl
  | cons p rest ih =>
    obtain ⟨k, w⟩ := p
    by_cases hk : k = key
    · simp only [cacheRemove]
      rw [if_pos hk]
      exact ih
    · simp only [cacheRemove]
      rw [if_neg hk]
      simp only [cacheLookup]
      rw [if_neg hk]
      exact ih

/-- The inductive invariant of the `ModelLayer` pipeline:
in-flight entry ids are distinct and valid; a `downloading` or `disposed`
entry is still `preparing` and unpopulated; an `error` entry is
unpopulated; an entry evicted while downloading (`disposedEver`) is never
`loaded`, never populated, and once its handler has fired it has left
`inflight`; an in-flight entry is `downloading` or `disposed`. -/
def MLState.Inv (s : MLState) : Prop :=
  s.inflight.Nodup ∧
  (∀ i ∈ s.inflight, i < s.entries.length) ∧
  (∀ i e, s.entries.get? i = some e →
    (e.stateDownload = .downloading →
      e.state = .preparing ∧ e.hasScene = false ∧ e.hasObjects = false) ∧
    (e.stateDownload = .disposed →
      e.state = .preparing ∧ e.hasScene = false ∧ e.hasObjects = false) ∧
    (e.state = .error → e.hasScene = false ∧ e.hasObjects = false) ∧
    (e.disposedEver = true →
      e.state ≠ .loaded ∧ e.hasScene = false ∧ e.hasObjects = false ∧
      (e.stateDownload = .disposed ∨ i ∉ s.inflight)) ∧
    (i ∈ s.inflight →
      e.stateDownload = .downloading ∨ e.stateDownload = .disposed))

theorem MLState.inv_ensureMiss {s : MLState} (h : s.Inv) (key : Nat) :
    (s.ensureMiss key).Inv := by
  obtain ⟨hnd, hbd, hent⟩ := h
  unfold MLState.ensureMiss
  split
  · exact ⟨hnd, hbd, hent⟩
  · have hlennotin : s.entries.length ∉ s.inflight := fun hm =>
      absurd (hbd _ hm) (by omega)
    refine ⟨?_, ?_, ?_⟩
    · simp only
      rw [List.nodup_append]
      exact ⟨hnd, List.nodup_singleton _,
        fun a ha hb => by simp at hb; subst hb; exact hlennotin ha⟩
    · intro i hi
      simp only [List.mem_append, List.mem_singleton] at hi
      simp only [List.length_append, List.length_singleton]
      rcases hi with hi | rfl
      · have := hbd i hi
        omega
      · omega
    · intro i e hget
      simp only at hget ⊢
      rw [get?_append_single] at hget
      by_cases hlt : i < s.entries.length
      · rw [if_pos hlt] at hget
        obtain ⟨p1, p2, p3, p4, p5⟩ := hent i e hget
        refine ⟨p1, p2, p3, ?_, ?_⟩
        · intro hde
          obtain ⟨q1, q2, q3, q4⟩ := p4 hde
          refine ⟨q1, q2, q3, ?_⟩
          rcases q4 with q4 | q4
          · exact Or.inl q4
          · refine Or.inr ?_
            simp only [List.mem_append, List.mem_singleton]
            rintro (hin | rfl)
            · exact q4 hin
            · omega
        · intro hin
          simp only [List.mem_append, List.mem_singleton] at hin
          rcases hin with hin | rfl
          · exact p5 hin
          · omega
      · rw [if_neg hlt] at hget
        by_cases heq : i = s.entries.length
        · rw [if_pos heq] at hget
          obtain rfl : _ = e := Option.some.inj hget
          refine ⟨fun _ => ⟨rfl, rfl, rfl⟩, by simp, by simp, by simp, ?_⟩
          intro _
          exact Or.inl rfl
        · rw [if_neg heq] at hget
          exact absurd hget (by simp)

theorem MLState.inv_evict {s : MLState} (h : s.Inv) (key : Nat) :
    (s.evict key).Inv := by
  obtain ⟨hnd, hbd, hent⟩ := h
  unfold MLState.evict
  cases hl : cacheLookup s.cache key with
  | none => exact ⟨hnd, hbd, hent⟩
  | some eid =>
    refine ⟨hnd, ?_, ?_⟩
    · intro i hi
      simp only [updateAt_length]
      exact hbd i hi
    · intro i e hget
      simp only [updateAt_get?] at hget
      by_cases hieq : i = eid
      · rw [if_pos hieq] at hget
        cases ho : s.entries.get? i with
        | none => rw [ho] at hget; exact absurd hget (by simp)
        | some e0 =>
          rw [ho] at hget
          simp only [Option.map_some'] at hget
          obtain rfl : _ = e := Option.some.inj hget
          obtain ⟨p1, p2, p3, p4, p5⟩ := hent i e0 ho
          by_cases hdl : e0.stateDownload = .disposed ∨
              e0.stateDownload = .loaded
          · simp only [if_pos hdl]
            exact ⟨p1, p2, p3, p4, p5⟩
          · simp only [if_neg hdl]
            push_neg at hdl
            have hdown : e0.stateDownload = .downloading := by
              cases hcase : e0.stateDownload
              · rfl
              · exact absurd hcase hdl.2
              · exact absurd hcase hdl.1
            obtain ⟨q1, q2, q3⟩ := p1 hdown
            refine ⟨by simp, fun _ => by simp [q1, q2, q3], ?_, ?_, ?_⟩
            · intro herr
              simp only [q1] at herr
              exact absurd herr (by simp)
            · intro _
              exact ⟨by simp [q1], by simp [q2], by simp [q3], by simp⟩
            · intro _
              simp
      · rw [if_neg hieq] at hget
        exact hent i e hget

theorem MLState.inv_completeOk {s : MLState} (h : s.Inv) (eid : Nat)
    (hasLayer : Bool) : (s.completeOk eid hasLayer).Inv := by
  obtain ⟨hnd, hbd, hent⟩ := h
  unfold MLState.completeOk
  split
  · rename_i hin
    refine ⟨hnd.erase eid, ?_, ?_⟩
    · intro i hi
      simp only [updateAt_length]
      exact hbd i (List.mem_of_mem_erase hi)
    · intro i e hget
      simp only [updateAt_get?] at hget
      have hnotself : eid ∉ s.inflight.erase eid := hnd.not_mem_erase
      by_cases hieq : i = eid
      · rw [if_pos hieq] at hget
        subst hieq
        cases ho : s.entries.get? i with
        | none => rw [ho] at hget; exact absurd hget (by simp)
        | some e0 =>
          rw [ho] at hget
          simp only [Option.map_some'] at hget
          obtain rfl : _ = e := Option.some.inj hget
          obtain ⟨p1, p2, p3, p4, p5⟩ := hent i e0 ho
          by_cases hdl : e0.stateDownload = .disposed
          · simp only [if_pos hdl]
            refine ⟨p1, p2, p3, ?_, fun _ => Or.inr hdl⟩
            intro hde
            obtain ⟨q1, q2, q3, _⟩ := p4 hde
            exact ⟨q1, q2, q3, Or.inl hdl⟩
          · simp only [if_neg hdl]
            have hdown : e0.stateDownload = .downloading := by
              rcases p5 hin with hc | hc
              · exact hc
              · exact absurd hc hdl
            have hde0 : e0.disposedEver = false := by
              by_contra hc
              have hc' : e0.disposedEver = true := by
                cases hv : e0.disposedEver
                · exact absurd hv hc
                · rfl
              obtain ⟨_, _, _, q4⟩ := p4 hc'
              rcases q4 with q4 | q4
              · exact hdl q4
              · exact q4 hin
            cases hasLayer with
            | true =>
              simp only [if_pos rfl]
              refine ⟨by simp, by simp, by simp, by simp [hde0], ?_⟩
              intro hmem
              exact absurd hmem hnotself
            | false =>
              rw [if_neg (by simp)]
              refine ⟨by simp, by simp, by simp, by simp [hde0], ?_⟩
              intro hmem
              exact absurd hmem hnotself
      · rw [if_neg hieq] at hget
        obtain ⟨p1, p2, p3, p4, p5⟩ := hent i e hget
        refine ⟨p1, p2, p3, ?_, ?_⟩
        · intro hde
          obtain ⟨q1, q2, q3, q4⟩ := p4 hde
          refine ⟨q1, q2, q3, ?_⟩
          rcases q4 with q4 | q4
          · exact Or.inl q4
          · exact Or.inr fun hm => q4 (List.mem_of_mem_erase hm)
        · intro hmem
          exact p5 (List.mem_of_mem_erase hmem)
  · exact ⟨hnd, hbd, hent⟩

theorem MLState.inv_completeErr {s : MLState} (h : s.Inv) (eid : Nat) :
    (s.completeErr eid).Inv := by
  obtain ⟨hnd, hbd, hent⟩ := h
  unfold MLState.completeErr
  split
  · rename_i hin
    refine ⟨hnd.erase eid, ?_, ?_⟩
    · intro i hi
      simp only [updateAt_length]
      exact hbd i (List.mem_of_mem_erase hi)
    · intro i e hget
      simp only [updateAt_get?] at hget
      have hnotself : eid ∉ s.inflight.erase eid := hnd.not_mem_erase
      by_cases hieq : i = eid
      · rw [if_pos hieq] at hget
        subst hieq
        cases ho : s.entries.get? i with
        | none => rw [ho] at hget; exact absurd hget (by simp)
        | some e0 =>
          rw [ho] at hget
          simp only [Option.map_some'] at hget
          obtain rfl : _ = e := Option.some.inj hget
          obtain ⟨p1, p2, p3, p4, p5⟩ := hent i e0 ho
          have hclean : e0.hasScene = false ∧ e0.hasObjects = false := by
            rcases p5 hin with hc | hc
            · exact ⟨(p1 hc).2.1, (p1 hc).2.2⟩
            · exact ⟨(p2 hc).2.1, (p2 hc).2.2⟩
          refine ⟨by simp, by simp, ?_, ?_, ?_⟩
          · intro _
            exact ⟨by simp [hclean.1], by simp [hclean.2]⟩
          · intro hde
            refine ⟨by simp, by simp [hclean.1], by simp [hclean.2],
              Or.inr fun hm => absurd hm hnotself⟩
          · intro hmem
            exact absurd hmem hnotself
      · rw [if_neg hieq] at hget
        obtain ⟨p1, p2, p3, p4, p5⟩ := hent i e hget
        refine ⟨p1, p2, p3, ?_, ?_⟩
        · intro hde
          obtain ⟨q1, q2, q3, q4⟩ := p4 hde
          refine ⟨q1, q2, q3, ?_⟩
          rcases q4 with q4 | q4
          · exact Or.inl q4
          · exact Or.inr fun hm => q4 (List.mem_of_mem_erase hm)
        · intro hmem
          exact p5 (List.mem_of_mem_erase hmem)
  · exact ⟨hnd, hbd, hent⟩

theorem MLState.ml_reachable_inv {s : MLState} (h : s.Reachable) : s.Inv := by
  induction h with
  | init =>
    refine ⟨List.nodup_nil, by simp, ?_⟩
    intro i e hget
    exact absurd hget (by simp)
  | ensure key _ ih => exact MLState.inv_ensureMiss ih key
  | evict key _ ih => exact MLState.inv_evict ih key
  | ok eid hasLayer _ ih => exact MLState.inv_completeOk ih eid hasLayer
  | err eid _ ih => exact MLState.inv_completeErr ih eid

/-- One event of the `ModelLayer` pipeline. -/
inductive MLState.Step : MLState → MLState → Prop
  | ensure (s : MLState) (key : Nat) : MLState.Step s (s.ensureMiss key)
  | evict (s : MLState) (key : Nat) : MLState.Step s (s.evict key)
  | ok (s : MLState) (eid : Nat) (hasLayer : Bool) :
      MLState.Step s (s.completeOk eid hasLayer)
  | err (s : MLState) (eid : Nat) : MLState.Step s (s.completeErr eid)

theorem MLState.ml_reachable_step {s t : MLState} (hr : s.Reachable)
    (hst : MLState.Step s t) : t.Reachable := by
  cases hst with
  | ensure key => exact MLState.Reachable.ensure key hr
  | evict key => exact MLState.Reachable.evict key hr
  | ok eid hasLayer => exact MLState.Reachable.ok eid hasLayer hr
  | err eid => exact MLState.Reachable.err eid hr

/-- No event of the pipeline ever clears the `disposedEver` ghost flag:
the source has no code path that un-disposes an entry. -/
theorem MLState.step_disposedEver {s t : MLState} (hst : MLState.Step s t)
    (i : Nat) (e : MLEntry) (hget : s.entries.get? i = some e)
    (hde : e.disposedEver = true) :
    ∃ e', t.entries.get? i = some e' ∧ e'.disposedEver = true := by
  cases hst with
  | ensure key =>
    unfold MLState.ensureMiss
    split
    · exact ⟨e, hget, hde⟩
    · refine ⟨e, ?_, hde⟩
      simp only [get?_append_single]
      rw [if_pos (get?_some_lt hget)]
      exact hget
  | evict key =>
    unfold MLState.evict
    cases hl : cacheLookup s.cache key with
    | none => exact ⟨e, hget, hde⟩
    | some eid =>
      simp only [updateAt_get?]
      by_cases hieq : i = eid
      · rw [if_pos hieq, hget]
        refine ⟨_, rfl, ?_⟩
        dsimp only
        split
        · exact hde
        · simp
      · rw [if_neg hieq]
        exact ⟨e, hget, hde⟩
  | ok eid hasLayer =>
    unfold MLState.completeOk
    split
    · simp only [updateAt_get?]
      by_cases hieq : i = eid
      · rw [if_pos hieq, hget]
        refine ⟨_, rfl, ?_⟩
        dsimp only
        split
        · exact hde
        · split
          · simp [hde]
          · simp [hde]
      · rw [if_neg hieq]
        exact ⟨e, hget, hde⟩
    · exact ⟨e, hget, hde⟩
  | err eid =>
    unfold MLState.completeErr
    split
    · simp only [updateAt_get?]
      by_cases hieq : i = eid
      · rw [if_pos hieq, hget]
        exact ⟨_, rfl, by dsimp only; simp [hde]⟩
      · rw [if_neg hieq]
        exact ⟨e, hget, hde⟩
    · exact ⟨e, hget, hde⟩

/-- The push condition of `ensureTiles` (part_011 lines 328-334): a cached
entry reaches the per-tile render loop only when its state is `loaded` and
its sub-scene and tile id are present (`hasScene` models
`sceneTile ∧ overScaledTileID`). -/
def MLState.renderEligible (s : MLState) (key : Nat) : Bool :=
  match cacheLookup s.cache key with
  | none => false
  | some eid =>
      match s.entries.get? eid with
      | none => false
      | some e => decide (e.state = .loaded) && e.hasScene

/-- The raycast condition of `handleClick` (part_011 lines 233-235): a tile
is intersected only when `tile?.sceneTile` and `tile.overScaledTileID` are
present. -/
def MLState.pickEligible (s : MLState) (key : Nat) : Bool :=
  match cacheLookup s.cache key with
  | none => false
  | some eid =>
      match s.entries.get? eid with
      | none => false
      | some e => e.hasScene

/-- The entry produced by requesting a tile and failing its fetch. -/
def c6entry : MLEntry :=
  { state := .error, stateDownload := .loaded, hasObjects := false,
    hasScene := false, disposedEver := false }

/-- The pipeline state after requesting tile key 5 (entry 0) and failing
its fetch. -/
def c6state : MLState :=
  { entries := [c6entry], cache := [(5, 0)], inflight := [] }

/-- The entry `ensureTiles` creates on a cache miss. -/
def mlFresh : MLEntry :=
  { state := .preparing, stateDownload := .downloading, hasObjects := false,
    hasScene := false, disposedEver := false }

/-- C6: when a tile's fetch or decode fails, the `.catch` handler
transitions its entry to `error` (a); an errored entry is excluded from
both the render list and picking, since it is not `loaded` and owns no
sub-scene (b); as long as its key stays cached, `ensureTiles` issues no new
fetch, so the failure is not retried (c); eviction removes the key from the
cache (d), and a subsequent `ensureTiles` on the now-missing key creates a
fresh `preparing` entry and starts a fresh fetch (e). -/
theorem c6_error_tile_excluded_until_refetched (s : MLState)
    (hr : s.Reachable) (eid key : Nat) (e : MLEntry) :
    (eid ∈ s.inflight →
      (s.completeErr eid).entries.get? eid =
        (s.entries.get? eid).map fun e0 =>
          { e0 with state := .error, stateDownload := .loaded }) ∧
    (cacheLookup s.cache key = some eid → s.entries.get? eid = some e →
      e.state = .error →
      s.renderEligible key = false ∧ s.pickEligible key = false) ∧
    ((cacheLookup s.cache key).isSome → s.ensureMiss key = s) ∧
    (cacheLookup (s.evict key).cache key = none) ∧
    (cacheLookup s.cache key = none →
      cacheLookup (s.ensureMiss key).cache key = some s.entries.length ∧
      (s.ensureMiss key).entries.get? s.entries.length = some mlFresh ∧
      (s.ensureMiss key).inflight = s.inflight ++ [s.entries.length]) := by
  obtain ⟨hnd, hbd, hent⟩ := MLState.ml_reachable_inv hr
  refine ⟨?_, ?_, ?_, ?_, ?_⟩
  · intro hin
    unfold MLState.completeErr
    rw [if_pos hin]
    dsimp only
    rw [updateAt_get?, if_pos rfl]
  · intro hlk hget herr
    have hscene : e.hasScene = false := ((hent eid e hget).2.2.1 herr).1
    constructor
    · unfold MLState.renderEligible
      simp only [hlk, hget]
      simp [herr, hscene]
    · unfold MLState.pickEligible
      simp only [hlk, hget]
      exact hscene
  · intro hsome
    unfold MLState.ensureMiss
    rw [if_pos hsome]
  · unfold MLState.evict
    cases hl : cacheLookup s.cache key with
    | none => exact hl
    | some eid2 => exact cacheRemove_lookup s.cache key
  · intro hnone
    unfold MLState.ensureMiss
    rw [if_neg (by rw [hnone]; simp)]
    refine ⟨cacheLookup_none_append s.cache key s.entries.length hnone,
      ?_, rfl⟩
    simp only [get?_append_single, mlFresh]
    simp

/-- Witness for C6 at the concrete reachable state `c6state` (tile key 5
requested, fetch failed, entry 0 in `error`). -/
theorem c6_error_tile_excluded_until_refetched_witness :
    ((0 : Nat) ∈ c6state.inflight →
      (c6state.completeErr 0).entries.get? 0 =
        (c6state.entries.get? 0).map fun e0 =>
          { e0 with state := .error, stateDownload := .loaded }) ∧
    (cacheLookup c6state.cache 5 = some 0 →
      c6state.entries.get? 0 = some c6entry →
      c6entry.state = .error →
      c6state.renderEligible 5 = false ∧ c6state.pickEligible 5 = false) ∧
    ((cacheLookup c6state.cache 5).isSome → c6state.ensureMiss 5 = c6state) ∧
    (cacheLookup (c6state.evict 5).cache 5 = none) ∧
    (cacheLookup c6state.cache 5 = none →
      cacheLookup (c6state.ensureMiss 5).cache 5 =
        some c6state.entries.length ∧
      (c6state.ensureMiss 5).entries.get? c6state.entries.length =
        some mlFresh ∧
      (c6state.ensureMiss 5).inflight =
        c6state.inflight ++ [c6state.entries.length]) :=
  c6_error_tile_excluded_until_refetched c6state
    (MLState.Reachable.err 0
      (MLState.Reachable.ensure 5 MLState.Reachable.init))
    0 5 c6entry

/-! ## C2 (second half): `CustomVectorSource` (src/unnamed/part_004)

Here the decode completion handler (the worker `onmessage`) does not hold a
reference to an entry: it looks the tile key up in the cache and writes into
whatever entry is cached under that key.  An entry evicted while still
`preparing` is marked `disposed` by the LRU `dispose` hook and
simultaneously leaves the cache, so a late worker message for its key finds
either nothing or a newer entry — never the disposed one. -/

inductive CvState
  | preparing
  | loaded
  | error
  | disposed
  deriving DecidableEq, Repr

structure CvsEntry where
  state : CvState
  hasData : Bool
  deriving DecidableEq, Repr

structure CvsSource where
  entries : List CvsEntry
  cache : List (Nat × Nat)
  deriving DecidableEq, Repr

/-- `getTile`: on a cache hit the cached entry is returned unchanged; on a
miss a fetch is enqueued and a fresh `preparing` entry with no data is
cached under the key. -/
def CvsSource.getTile (s : CvsSource) (key : Nat) : CvsSource :=
  if (cacheLookup s.cache key).isSome then s
  else
    { entries := s.entries ++ [{ state := .preparing, hasData := false }],
      cache := s.cache ++ [(key, s.entries.length)] }

/-- LRU eviction: the `dispose` hook marks the entry `disposed` only if it
is still `preparing`, and the binding leaves the cache either way. -/
def CvsSource.evictTile (s : CvsSource) (key : Nat) : CvsSource :=
  match cacheLookup s.cache key with
  | none => s
  | some eid =>
      { cache := cacheRemove s.cache key,
        entries := updateAt s.entries eid fun e =>
          if e.state = .preparing then { e with state := .disposed } else e }

/-- The worker `onmessage` handler: look the key up in the cache; if an
entry is found, store the decoded data and mark it `loaded`; otherwise do
nothing. -/
def CvsSource.workerMessage (s : CvsSource) (key : Nat) : CvsSource :=
  match cacheLookup s.cache key with
  | none => s
  | some eid =>
      { s with entries := updateAt s.entries eid fun e =>
          { e with hasData := true, state := .loaded } }

inductive CvsSource.Reachable : CvsSource → Prop
  | init : CvsSource.Reachable { entries := [], cache := [] }
  | get {s : CvsSource} (key : Nat) :
      CvsSource.Reachable s → CvsSource.Reachable (s.getTile key)
  | evict {s : CvsSource} (key : Nat) :
      CvsSource.Reachable s → CvsSource.Reachable (s.evictTile key)
  | msg {s : CvsSource} (key : Nat) :
      CvsSource.Reachable s → CvsSource.Reachable (s.workerMessage key)

inductive CvsSource.Step : CvsSource → CvsSource → Prop
  | get (s : CvsSource) (key : Nat) : CvsSource.Step s (s.getTile key)
  | evict (s : CvsSource) (key : Nat) : CvsSource.Step s (s.evictTile key)
  | msg (s : CvsSource) (key : Nat) : CvsSource.Step s (s.workerMessage key)

theorem CvsSource.cvs_reachable_step {s t : CvsSource} (hr : s.Reachable)
    (hst : CvsSource.Step s t) : t.Reachable := by
  cases hst with
  | get key => exact CvsSource.Reachable.get key hr
  | evict key => exact CvsSource.Reachable.evict key hr
  | msg key => exact CvsSource.Reachable.msg key hr

/-- The inductive invariant of `CustomVectorSource`: cached entry ids are
distinct and valid, no cached entry is `disposed`, a `disposed` entry holds
no data, and a `preparing` entry holds no data. -/
def CvsSource.Inv (s : CvsSource) : Prop :=
  ((s.cache.map Prod.snd).Nodup) ∧
  (∀ p ∈ s.cache, p.2 < s.entries.length) ∧
  (∀ p ∈ s.cache, ∀ e, s.entries.get? p.2 = some e → e.state ≠ .disposed) ∧
  (∀ i e, s.entries.get? i = some e →
    (e.state = .disposed → e.hasData = false) ∧
    (e.state = .preparing → e.hasData = false))

theorem cacheLookup_mem :
    ∀ (c : List (Nat × Nat)) (key v : Nat),
      cacheLookup c key = some v → (key, v) ∈ c
  | [], _, _, h => absurd h (by simp [cacheLookup])
  | (k, w) :: rest, key, v, h => by
      by_cases hk : k = key
      · rw [cacheLookup, if_pos hk] at h
        obtain rfl : w = v := Option.some.inj h
        subst hk
        exact List.mem_cons_self _ _
      · rw [cacheLookup, if_neg hk] at h
        exact List.mem_cons_of_mem _ (cacheLookup_mem rest key v h)

theorem cacheRemove_subset :
    ∀ (c : List (Nat × Nat)) (key : Nat) (p : Nat × Nat),
      p ∈ cacheRemove c key → p ∈ c
  | [], _, _, h => absurd h (by simp [cacheRemove])
  | (k, w) :: rest, key, p, h => by
      by_cases hk : k = key
      · rw [cacheRemove, if_pos hk] at h
        exact List.mem_cons_of_mem _ (cacheRemove_subset rest key p h)
      · rw [cacheRemove, if_neg hk] at h
        rcases List.mem_cons.mp h with rfl | h'
        · exact List.mem_cons_self _ _
        · exact List.mem_cons_of_mem _ (cacheRemove_subset rest key p h')

theorem cacheRemove_sublist :
    ∀ (c : List (Nat × Nat)) (key : Nat), List.Sublist (cacheRemove c key) c
  | [], _ => List.Sublist.refl _
  | (k, w) :: rest, key => by
      by_cases hk : k = key
      · rw [cacheRemove, if_pos hk]
        exact List.Sublist.cons _ (cacheRemove_sublist rest key)
      · rw [cacheRemove, if_neg hk]
        exact List.Sublist.cons₂ _ (cacheRemove_sublist rest key)

theorem cacheRemove_ne_key :
    ∀ (c : List (Nat × Nat)) (key : Nat) (p : Nat × Nat),
      p ∈ cacheRemove c key → p.1 ≠ key
  | [], _, _, h => absurd h (by simp [cacheRemove])
  | (k, w) :: rest, key, p, h => by
      by_cases hk : k = key
      · rw [cacheRemove, if_pos hk] at h
        exact cacheRemove_ne_key rest key p h
      · rw [cacheRemove, if_neg hk] at h
        rcases List.mem_cons.mp h with rfl | h'
        · exact hk
        · exact cacheRemove_ne_key rest key p h'

theorem CvsSource.inv_getTile {s : CvsSource} (h : s.Inv) (key : Nat) :
    (s.getTile key).Inv := by
  obtain ⟨hnd, hbd, hcached, hent⟩ := h
  unfold CvsSource.getTile
  split
  · exact ⟨hnd, hbd, hcached, hent⟩
  · refine ⟨?_, ?_, ?_, ?_⟩
    · simp only [List.map_append, List.map_cons, List.map_nil]
      rw [List.nodup_append]
      refine ⟨hnd, List.nodup_singleton _, ?_⟩
      intro a ha hb
      simp only [List.mem_singleton] at hb
      subst hb
      obtain ⟨p, hp, hps⟩ := List.mem_map.mp ha
      have := hbd p hp
      omega
    · intro p hp
      simp only [List.length_append, List.length_singleton]
      rcases List.mem_append.mp hp with hp | hp
      · have := hbd p hp
        omega
      · simp only [List.mem_singleton] at hp
        subst hp
        simp
    · intro p hp e hget
      simp only at hget
      rw [get?_append_single] at hget
      rcases List.mem_append.mp hp with hp | hp
      · rw [if_pos (hbd p hp)] at hget
        exact hcached p hp e hget
      · simp only [List.mem_singleton] at hp
        subst hp
        obtain rfl : ({ state := .preparing, hasData := false } : CvsEntry) =
            e := by simpa using hget
        simp
    · intro i e hget
      simp only at hget
      rw [get?_append_single] at hget
      by_cases hlt : i < s.entries.length
      · rw [if_pos hlt] at hget
        exact hent i e hget
      · rw [if_neg hlt] at hget
        by_cases heq : i = s.entries.length
        · rw [if_pos heq] at hget
          obtain rfl : _ = e := Option.some.inj hget
          exact ⟨by simp, by simp⟩
        · rw [if_neg heq] at hget
          exact absurd hget (by simp)

theorem CvsSource.inv_evictTile {s : CvsSource} (h : s.Inv) (key : Nat) :
    (s.evictTile key).Inv := by
  obtain ⟨hnd, hbd, hcached, hent⟩ := h
  unfold CvsSource.evictTile
  cases hl : cacheLookup s.cache key with
  | none => exact ⟨hnd, hbd, hcached, hent⟩
  | some eid =>
    have hkeymem : (key, eid) ∈ s.cache := cacheLookup_mem s.cache key eid hl
    refine ⟨?_, ?_, ?_, ?_⟩
    · exact List.Nodup.sublist
        (List.Sublist.map Prod.snd (cacheRemove_sublist s.cache key)) hnd
    · intro p hp
      simp only [updateAt_length]
      exact hbd p (cacheRemove_subset s.cache key p hp)
    · intro p hp e hget
      have hpmem : p ∈ s.cache := cacheRemove_subset s.cache key p hp
      have hpne : p.1 ≠ key := cacheRemove_ne_key s.cache key p hp
      have hpe : p.2 ≠ eid := by
        intro hcontra
        have heqp := List.inj_on_of_nodup_map hnd hpmem hkeymem
          (by simpa using hcontra)
        exact hpne (by rw [heqp])
      simp only [updateAt_get?, if_neg hpe] at hget
      exact hcached p hpmem e hget
    · intro i e hget
      simp only [updateAt_get?] at hget
      by_cases hieq : i = eid
      · rw [if_pos hieq] at hget
        cases ho : s.entries.get? i with
        | none => rw [ho] at hget; exact absurd hget (by simp)
        | some e0 =>
          rw [ho] at hget
          simp only [Option.map_some'] at hget
          obtain rfl : _ = e := Option.some.inj hget
          obtain ⟨q1, q2⟩ := hent i e0 ho
          by_cases hprep : e0.state = .preparing
          · rw [if_pos hprep]
            exact ⟨fun _ => q2 hprep, fun _ => q2 hprep⟩
          · rw [if_neg hprep]
            exact ⟨q1, q2⟩
      · rw [if_neg hieq] at hget
        exact hent i e hget

theorem CvsSource.inv_workerMessage {s : CvsSource} (h : s.Inv) (key : Nat) :
    (s.workerMessage key).Inv := by
  obtain ⟨hnd, hbd, hcached, hent⟩ := h
  unfold CvsSource.workerMessage
  cases hl : cacheLookup s.cache key with
  | none => exact ⟨hnd, hbd, hcached, hent⟩
  | some eid =>
    refine ⟨hnd, ?_, ?_, ?_⟩
    · intro p hp
      simp only [updateAt_length]
      exact hbd p hp
    · intro p hp e hget
      simp only [updateAt_get?] at hget
      by_cases hpe : p.2 = eid
      · rw [if_pos hpe] at hget
        cases ho : s.entries.get? p.2 with
        | none => rw [ho] at hget; exact absurd hget (by simp)
        | some e0 =>
          rw [ho] at hget
          simp only [Option.map_some'] at hget
          obtain rfl : _ = e := Option.some.inj hget
          simp
      · rw [if_neg hpe] at hget
        exact hcached p hp e hget
    · intro i e hget
      simp only [updateAt_get?] at hget
      by_cases hieq : i = eid
      · rw [if_pos hieq] at hget
        cases ho : s.entries.get? i with
        | none => rw [ho] at hget; exact absurd hget (by simp)
        | some e0 =>
          rw [ho] at hget
          simp only [Option.map_some'] at hget
          obtain rfl : _ = e := Option.some.inj hget
          exact ⟨by simp, by simp⟩
      · rw [if_neg hieq] at hget
        exact hent i e hget

theorem CvsSource.cvs_reachable_inv {s : CvsSource} (h : s.Reachable) :
    s.Inv := by
  induction h with
  | init =>
    refine ⟨List.nodup_nil, by simp, by simp, ?_⟩
    intro i e hget
    exact absurd hget (by simp)
  | get key _ ih => exact CvsSource.inv_getTile ih key
  | evict key _ ih => exact CvsSource.inv_evictTile ih key
  | msg key _ ih => exact CvsSource.inv_workerMessage ih key

/-- No event of `CustomVectorSource` writes to a disposed entry: disposed
entries are outside the cache, and the worker handler only writes through a
cache lookup. -/
theorem CvsSource.step_disposed {s t : CvsSource} (hr : s.Reachable)
    (hst : CvsSource.Step s t) (j : Nat) (ev : CvsEntry)
    (hget : s.entries.get? j = some ev) (hdv : ev.state = .disposed) :
    ∃ ev', t.entries.get? j = some ev' ∧ ev'.state = .disposed ∧
      ev'.hasData = ev.hasData := by
  obtain ⟨hnd, hbd, hcached, hent⟩ := CvsSource.cvs_reachable_inv hr
  cases hst with
  | get key =>
    unfold CvsSource.getTile
    split
    · exact ⟨ev, hget, hdv, rfl⟩
    · refine ⟨ev, ?_, hdv, rfl⟩
      simp only [get?_append_single]
      rw [if_pos (get?_some_lt hget)]
      exact hget
  | evict key =>
    unfold CvsSource.evictTile
    cases hl : cacheLookup s.cache key with
    | none => exact ⟨ev, hget, hdv, rfl⟩
    | some eid =>
      simp only [updateAt_get?]
      by_cases hje : j = eid
      · rw [if_pos hje, hget]
        simp only [Option.map_some']
        have hne : ¬ ev.state = .preparing := by rw [hdv]; simp
        refine ⟨_, rfl, ?_, ?_⟩
        · dsimp only
          rw [if_neg hne]
          exact hdv
        · dsimp only
          rw [if_neg hne]
      · rw [if_neg hje]
        exact ⟨ev, hget, hdv, rfl⟩
  | msg key =>
    unfold CvsSource.workerMessage
    cases hl : cacheLookup s.cache key with
    | none => exact ⟨ev, hget, hdv, rfl⟩
    | some eid =>
      have hje : j ≠ eid := by
        rintro rfl
        exact hcached (key, j) (cacheLookup_mem s.cache key j hl) ev hget hdv
      simp only [updateAt_get?]
      rw [if_neg hje]
      exact ⟨ev, hget, hdv, rfl⟩

/-- C2: in both tile pipelines, an entry evicted (disposed) while its
fetch/decode is in flight is never populated.  For `ModelLayer`: at every
reachable state, an entry with the `disposedEver` flag is not `loaded` and
owns neither a feature list nor a sub-scene, and this persists across every
further event (the late completion handler checks `stateDownload` and
backs off).  For `CustomVectorSource`: a `disposed` entry holds no decoded
data, and every further event — including a late worker message for its
key — leaves it disposed and dataless, because disposed entries are no
longer in the cache the handler writes through. -/
theorem c2_disposed_entry_never_populated
    (s : MLState) (hr : s.Reachable) (i : Nat) (e : MLEntry)
    (hget : s.entries.get? i = some e) (hde : e.disposedEver = true)
    (t : MLState) (hstep : MLState.Step s t)
    (sv : CvsSource) (hrv : sv.Reachable) (j : Nat) (ev : CvsEntry)
    (hgv : sv.entries.get? j = some ev) (hdv : ev.state = CvState.disposed)
    (tv : CvsSource) (hstepv : CvsSource.Step sv tv) :
    (e.state ≠ TileState.loaded ∧ e.hasScene = false ∧
      e.hasObjects = false) ∧
    ((t.entries.get? i).map MLEntry.disposedEver = some true ∧
      (t.entries.get? i).map MLEntry.state ≠ some TileState.loaded ∧
      (t.entries.get? i).map MLEntry.hasScene = some false ∧
      (t.entries.get? i).map MLEntry.hasObjects = some false) ∧
    ev.hasData = false ∧
    ((tv.entries.get? j).map CvsEntry.state = some CvState.disposed ∧
      (tv.entries.get? j).map CvsEntry.hasData = some false) := by
  obtain ⟨-, -, hent⟩ := MLState.ml_reachable_inv hr
  obtain ⟨q1, q2, q3, -⟩ := (hent i e hget).2.2.2.1 hde
  obtain ⟨e', hgete', hde'⟩ := MLState.step_disposedEver hstep i e hget hde
  obtain ⟨-, -, hent'⟩ :=
    MLState.ml_reachable_inv (MLState.ml_reachable_step hr hstep)
  obtain ⟨r1, r2, r3, -⟩ := (hent' i e' hgete').2.2.2.1 hde'
  obtain ⟨-, -, -, hentv⟩ := CvsSource.cvs_reachable_inv hrv
  have hdata : ev.hasData = false := (hentv j ev hgv).1 hdv
  obtain ⟨ev', hgv', hdv', hdata'⟩ :=
    CvsSource.step_disposed hrv hstepv j ev hgv hdv
  refine ⟨⟨q1, q2, q3⟩, ⟨?_, ?_, ?_, ?_⟩, hdata, ?_, ?_⟩
  · rw [hgete']
    simp [hde']
  · rw [hgete']
    simpa using r1
  · rw [hgete']
    simpa using r2
  · rw [hgete']
    simpa using r3
  · rw [hgv']
    simpa using hdv'
  · rw [hgv']
    simp [hdata', hdata]

/-- The `ModelLayer` entry for a tile evicted while downloading. -/
def c2mlEntry : MLEntry :=
  { state := .preparing, stateDownload := .disposed, hasObjects := false,
    hasScene := false, disposedEver := true }

/-- The `ModelLayer` state after requesting tile key 5 and evicting it
while its fetch is still in flight. -/
def c2mlState : MLState :=
  { entries := [c2mlEntry], cache := [], inflight := [0] }

def c2cvsEntry : CvsEntry := { state := .disposed, hasData := false }

/-- The `CustomVectorSource` state after requesting tile key 5 and evicting
it while its decode is still in flight. -/
def c2cvsState : CvsSource := { entries := [c2cvsEntry], cache := [] }

/-- Witness for C2: the evicted-in-flight entry, when its decode resolves
late (`completeOk`/`workerMessage`), stays unpopulated and never becomes
`loaded`. -/
theorem c2_disposed_entry_never_populated_witness :
    (c2mlEntry.state ≠ TileState.loaded ∧ c2mlEntry.hasScene = false ∧
      c2mlEntry.hasObjects = false) ∧
    (((c2mlState.completeOk 0 true).entries.get? 0).map
        MLEntry.disposedEver = some true ∧
      ((c2mlState.completeOk 0 true).entries.get? 0).map MLEntry.state ≠
        some TileState.loaded ∧
      ((c2mlState.completeOk 0 true).entries.get? 0).map MLEntry.hasScene =
        some false ∧
      ((c2mlState.completeOk 0 true).entries.get? 0).map
        MLEntry.hasObjects = some false) ∧
    c2cvsEntry.hasData = false ∧
    (((c2cvsState.workerMessage 5).entries.get? 0).map CvsEntry.state =
        some CvState.disposed ∧
      ((c2cvsState.workerMessage 5).entries.get? 0).map CvsEntry.hasData =
        some false) :=
  c2_disposed_entry_never_populated c2mlState
    (MLState.Reachable.evict 5
      (MLState.Reachable.ensure 5 MLState.Reachable.init))
    0 c2mlEntry rfl rfl
    (c2mlState.completeOk 0 true) (MLState.Step.ok c2mlState 0 true)
    c2cvsState
    (CvsSource.Reachable.evict 5
      (CvsSource.Reachable.get 5 CvsSource.Reachable.init))
    0 c2cvsEntry rfl rfl
    (c2cvsState.workerMessage 5) (CvsSource.Step.msg c2cvsState 5)

/-! ## C7: `ModelLayer.populateScene` (src/unnamed/part_011, lines 437-494)

One decoded feature (`ObjectInfo`): `modelName`/`modelId` are `none` when
the source strings are missing or empty (falsy).  The sub-scene is the
ordered list of its children: the light group (and optional shadow group)
created at tile load, plus, per placement, one `MaplibreShadowMesh` for
each mesh child of the clone followed by the named clone itself.
`modelLoaded name` models `modelCache.get(name)` being present with
`stateDownload === "loaded"` and an `object3d`; `meshCount name` is the
number of mesh children of that asset's clone. -/

structure MLObject where
  modelName : Option Nat
  modelId : Option Nat
  deriving DecidableEq, Repr

inductive SceneNode
  | lightGroup
  | shadowGroup
  | shadowMesh (owner : Nat)
  | model (id : Nat)
  deriving DecidableEq, Repr

/-- `tile.sceneTile.getObjectByName(modelId)`: the only scene nodes named
with a feature id are the placed clones. -/
def sceneHas (scene : List SceneNode) (id : Nat) : Bool :=
  scene.any fun n =>
    match n with
    | .model i => i = id
    | _ => false

/-- The body of the `for (const object of tile.objects)` loop: skip when
`modelName`/`modelId` are falsy, when the referenced asset is not `loaded`,
or when the scene already holds an object named `modelId`; otherwise add
one shadow mesh per mesh child of the clone and then the clone. -/
def placeStep (modelLoaded : Nat → Bool) (meshCount : Nat → Nat)
    (sc : List SceneNode) (obj : MLObject) : List SceneNode :=
  match obj.modelName, obj.modelId with
  | some name, some id =>
      if ¬ modelLoaded name then sc
      else if sceneHas sc id then sc
      else sc ++ List.replicate (meshCount name) (SceneNode.shadowMesh id) ++
        [SceneNode.model id]
  | _, _ => sc

/-- `populateScene`: early return when the child count already equals the
feature count, else run the placement loop. -/
def populateScene (modelLoaded : Nat → Bool) (meshCount : Nat → Nat)
    (objects : List MLObject) (scene : List SceneNode) : List SceneNode :=
  if scene.length = objects.length then scene
  else objects.foldl (placeStep modelLoaded meshCount) scene

theorem sceneHas_iff_mem (scene : List SceneNode) (id : Nat) :
    sceneHas scene id = true ↔ SceneNode.model id ∈ scene := by
  simp only [sceneHas, List.any_eq_true]
  constructor
  · rintro ⟨n, hn, hp⟩
    cases n with
    | lightGroup => simp at hp
    | shadowGroup => simp at hp
    | shadowMesh o => simp at hp
    | model i =>
      simp only [decide_eq_true_eq] at hp
      exact hp ▸ hn
  · intro hm
    exact ⟨SceneNode.model id, hm, by simp⟩

theorem placeStep_mono (ml : Nat → Bool) (mc : Nat → Nat)
    (sc : List SceneNode) (obj : MLObject) (id : Nat)
    (h : sceneHas sc id = true) :
    sceneHas (placeStep ml mc sc obj) id = true := by
  unfold placeStep
  cases hn : obj.modelName with
  | none => exact h
  | some name =>
    cases hi : obj.modelId with
    | none => exact h
    | some id0 =>
      dsimp only
      by_cases hld : ml name = true
      · rw [if_neg (by simp [hld])]
        by_cases hpres : sceneHas sc id0 = true
        · rw [if_pos hpres]
          exact h
        · rw [if_neg hpres]
          rw [sceneHas_iff_mem] at h ⊢
          simp only [List.append_assoc, List.mem_append]
          exact Or.inl h
      · rw [if_pos hld]
        exact h

theorem foldPlace_mono (ml : Nat → Bool) (mc : Nat → Nat) :
    ∀ (objs : List MLObject) (sc : List SceneNode) (id : Nat),
      sceneHas sc id = true →
      sceneHas (objs.foldl (placeStep ml mc) sc) id = true := by
  intro objs
  induction objs with
  | nil => intro sc id h; exact h
  | cons o rest ih =>
    intro sc id h
    exact ih _ id (placeStep_mono ml mc sc o id h)

/-- The skip condition of the placement loop for one feature, at a given
scene: the feature is invalid, its asset is not loaded, or its id is
already placed. -/
def skipsAt (ml : Nat → Bool) (sc : List SceneNode) (obj : MLObject) :
    Prop :=
  match obj.modelName, obj.modelId with
  | some name, some id => ml name = false ∨ sceneHas sc id = true
  | _, _ => True

theorem placeStep_of_skips {ml : Nat → Bool} {mc : Nat → Nat}
    {sc : List SceneNode} {obj : MLObject} (h : skipsAt ml sc obj) :
    placeStep ml mc sc obj = sc := by
  unfold skipsAt at h
  unfold placeStep
  cases hn : obj.modelName with
  | none => rfl
  | some name =>
    cases hi : obj.modelId with
    | none => rfl
    | some id0 =>
      rw [hn, hi] at h
      dsimp only at h ⊢
      rcases h with h | h
      · rw [if_pos (by simp [h])]
      · by_cases hld : ml name = true
        · rw [if_neg (by simp [hld]), if_pos h]
        · rw [if_pos hld]

theorem foldPlace_of_skips {ml : Nat → Bool} {mc : Nat → Nat} :
    ∀ {objs : List MLObject} {sc : List SceneNode},
      (∀ obj ∈ objs, skipsAt ml sc obj) →
      objs.foldl (placeStep ml mc) sc = sc
  | [], _, _ => rfl
  | o :: rest, sc, h => by
      simp only [List.foldl_cons]
      rw [placeStep_of_skips (h o (List.mem_cons_self o rest))]
      exact foldPlace_of_skips fun obj hm => h obj (List.mem_cons_of_mem o hm)

theorem foldPlace_post (ml : Nat → Bool) (mc : Nat → Nat) :
    ∀ (objs : List MLObject) (sc : List SceneNode),
      ∀ obj ∈ objs, skipsAt ml (objs.foldl (placeStep ml mc) sc) obj := by
  intro objs
  induction objs with
  | nil => intro sc obj h; exact absurd h (by simp)
  | cons o rest ih =>
    intro sc obj hmem
    simp only [List.foldl_cons]
    rcases List.mem_cons.mp hmem with rfl | hmem'
    · unfold skipsAt
      cases hn : obj.modelName with
      | none => trivial
      | some name =>
        cases hi : obj.modelId with
        | none => trivial
        | some id0 =>
          dsimp only
          by_cases hld : ml name = true
          · refine Or.inr ?_
            apply foldPlace_mono
            unfold placeStep
            rw [hn, hi]
            dsimp only
            rw [if_neg (by simp [hld])]
            by_cases hpres : sceneHas sc id0 = true
            · rw [if_pos hpres]
              exact hpres
            · rw [if_neg hpres]
              rw [sceneHas_iff_mem]
              simp
          · exact Or.inl (by simpa using hld)
    · exact ih (placeStep ml mc sc o) obj hmem'

theorem placeStep_count (ml : Nat → Bool) (mc : Nat → Nat)
    (sc : List SceneNode) (obj : MLObject)
    (h : ∀ id, sc.count (SceneNode.model id) ≤ 1) :
    ∀ id, (placeStep ml mc sc obj).count (SceneNode.model id) ≤ 1 := by
  intro id
  unfold placeStep
  cases hn : obj.modelName with
  | none => exact h id
  | some name =>
    cases hi : obj.modelId with
    | none => exact h id
    | some id0 =>
      dsimp only
      by_cases hld : ml name = true
      · rw [if_neg (by simp [hld])]
        by_cases hpres : sceneHas sc id0 = true
        · rw [if_pos hpres]
          exact h id
        · rw [if_neg hpres]
          simp only [List.count_append]
          have hshadow :
              (List.replicate (mc name) (SceneNode.shadowMesh id0)).count
                (SceneNode.model id) = 0 := by
            rw [List.count_eq_zero]
            intro hmem
            exact absurd (List.eq_of_mem_replicate hmem) (by simp)
          by_cases hid : id = id0
          · subst hid
            have hz : sc.count (SceneNode.model id) = 0 := by
              rw [List.count_eq_zero]
              intro hmem
              rw [← sceneHas_iff_mem] at hmem
              exact hpres hmem
            simp [hz, hshadow]
          · have hone :
                ([SceneNode.model id0].count (SceneNode.model id)) = 0 := by
              rw [List.count_eq_zero]
              intro hmem
              simp only [List.mem_singleton] at hmem
              injection hmem with h2
              exact hid h2
            rw [hshadow, hone]
            have := h id
            omega
      · rw [if_pos hld]
        exact h id

theorem foldPlace_count (ml : Nat → Bool) (mc : Nat → Nat) :
    ∀ (objs : List MLObject) (sc : List SceneNode),
      (∀ id, sc.count (SceneNode.model id) ≤ 1) →
      ∀ id, (objs.foldl (placeStep ml mc) sc).count (SceneNode.model id) ≤
        1 := by
  intro objs
  induction objs with
  | nil => intro sc h; exact h
  | cons o rest ih =>
    intro sc h
    exact ih (placeStep ml mc sc o) (placeStep_count ml mc sc o h)

theorem foldPlace_origin (ml : Nat → Bool) (mc : Nat → Nat) :
    ∀ (objs : List MLObject) (sc : List SceneNode) (n : Nat),
      sceneHas (objs.foldl (placeStep ml mc) sc) n = true →
      sceneHas sc n = true ∨ ∃ obj ∈ objs, obj.modelId = some n ∧
        ∃ name, obj.modelName = some name ∧ ml name = true := by
  intro objs
  induction objs with
  | nil => intro sc n h; exact Or.inl h
  | cons o rest ih =>
    intro sc n h
    simp only [List.foldl_cons] at h
    rcases ih (placeStep ml mc sc o) n h with h1 | ⟨obj, hm, hrest⟩
    · unfold placeStep at h1
      cases hn : o.modelName with
      | none =>
        rw [hn] at h1
        exact Or.inl h1
      | some name =>
        cases hi : o.modelId with
        | none =>
          rw [hn, hi] at h1
          exact Or.inl h1
        | some id0 =>
          rw [hn, hi] at h1
          dsimp only at h1
          by_cases hld : ml name = true
          · rw [if_neg (by simp [hld])] at h1
            by_cases hpres : sceneHas sc id0 = true
            · rw [if_pos hpres] at h1
              exact Or.inl h1
            · rw [if_neg hpres] at h1
              rw [sceneHas_iff_mem] at h1
              simp only [List.append_assoc, List.mem_append,
                List.mem_singleton] at h1
              rcases h1 with h1 | h1 | h1
              · exact Or.inl ((sceneHas_iff_mem sc n).mpr h1)
              · exact absurd (List.eq_of_mem_replicate h1) (by simp)
              · refine Or.inr ⟨o, List.mem_cons_self o rest,
                  ?_, name, hn, hld⟩
                rw [hi]
                injection h1 with h2
                rw [h2]
          · rw [if_pos hld] at h1
            exact Or.inl h1
    · exact Or.inr ⟨obj, List.mem_cons_of_mem o hm, hrest⟩

/-- C7: starting from a scene holding at most one object per id (as the
freshly created sub-scene does), `populateScene` places at most one object
per unique feature id (a); re-invoking it on the already-populated scene
changes nothing — it is idempotent (b); and an id that was absent can only
appear through a feature carrying that id whose referenced mesh asset is
`loaded` — features with missing ids or unloaded assets are skipped (c). -/
theorem c7_populate_scene_idempotent (ml : Nat → Bool) (mc : Nat → Nat)
    (objects : List MLObject) (scene : List SceneNode)
    (huniq : ∀ id, scene.count (SceneNode.model id) ≤ 1) :
    (∀ id, (populateScene ml mc objects scene).count (SceneNode.model id) ≤
      1) ∧
    populateScene ml mc objects (populateScene ml mc objects scene) =
      populateScene ml mc objects scene ∧
    (∀ n, sceneHas scene n = false →
      sceneHas (populateScene ml mc objects scene) n = true →
      ∃ obj ∈ objects, obj.modelId = some n ∧
        ∃ name, obj.modelName = some name ∧ ml name = true) := by
  refine ⟨?_, ?_, ?_⟩
  · intro id
    unfold populateScene
    split
    · exact huniq id
    · exact foldPlace_count ml mc objects scene huniq id
  · have hp : populateScene ml mc objects scene =
        if scene.length = objects.length then scene
        else objects.foldl (placeStep ml mc) scene := rfl
    by_cases hg : scene.length = objects.length
    · have h1 : populateScene ml mc objects scene = scene := by
        rw [hp, if_pos hg]
      rw [h1]
      exact h1
    · have h1 : populateScene ml mc objects scene =
          objects.foldl (placeStep ml mc) scene := by
        rw [hp, if_neg hg]
      rw [h1]
      by_cases hg2 :
          (objects.foldl (placeStep ml mc) scene).length = objects.length
      · rw [populateScene, if_pos hg2]
      · rw [populateScene, if_neg hg2]
        exact foldPlace_of_skips (foldPlace_post ml mc objects scene)
  · intro n h0 h1
    unfold populateScene at h1
    split at h1
    · rw [h1] at h0
      exact absurd h0 (by simp)
    · rcases foldPlace_origin ml mc objects scene n h1 with h2 | h2
      · rw [h2] at h0
        exact absurd h0 (by simp)
      · exact h2

/-- Witness for C7 at a concrete tile: one feature (asset 7, id 3) whose
asset is loaded, placed into a fresh sub-scene holding only the light
group. -/
theorem c7_populate_scene_idempotent_witness :
    (∀ id,
      (populateScene (fun _ => true) (fun _ => 1) [⟨some 7, some 3⟩]
        [SceneNode.lightGroup]).count (SceneNode.model id) ≤ 1) ∧
    populateScene (fun _ => true) (fun _ => 1) [⟨some 7, some 3⟩]
        (populateScene (fun _ => true) (fun _ => 1) [⟨some 7, some 3⟩]
          [SceneNode.lightGroup]) =
      populateScene (fun _ => true) (fun _ => 1) [⟨some 7, some 3⟩]
        [SceneNode.lightGroup] ∧
    (∀ n, sceneHas [SceneNode.lightGroup] n = false →
      sceneHas (populateScene (fun _ => true) (fun _ => 1) [⟨some 7, some 3⟩]
        [SceneNode.lightGroup]) n = true →
      ∃ obj ∈ ([⟨some 7, some 3⟩] : List MLObject), obj.modelId = some n ∧
        ∃ name, obj.modelName = some name ∧ (fun _ => true) name = true) :=
  c7_populate_scene_idempotent (fun _ => true) (fun _ => 1)
    [⟨some 7, some 3⟩] [SceneNode.lightGroup]
    (by intro id; rw [List.count_eq_zero.mpr (by simp)]; omega)

/-! ## C8: `WaterLayer` rebuild dirty flag
(src/src/components/map/water/WaterLayer.ts)

`isRebuildWaterGeometry` is the dirty flag.  `waterMoveEnd` is the
`map.on("moveend", ...)` handler installed in `onAdd` (lines 106-108).
`waterPrerender` returns the flag's value after one `prerender` call, whose
flag-relevant structure is: early return when the flag is clear (line 133);
return with the flag untouched when any covering tile's `getTile` state is
not `"loaded"` (`dataNotReady`, lines 145-161); clear the flag and return
when no water polygons were collected (lines 191-194); otherwise merge and
triangulate inside `try ... finally`, whose `finally` clears the flag even
when the polygon union throws (lines 196-230). -/
def waterMoveEnd (_flag : Bool) : Bool := true

def waterPrerender (flag : Bool) (tileStates : List CvState)
    (polygonsEmpty : Bool) (unionThrows : Bool) : Bool :=
  if ¬ flag = true then flag
  else if tileStates.any (fun st => decide (¬ st = CvState.loaded)) then flag
  else if polygonsEmpty then false
  else if unionThrows then false
  else false

/-- C8: the dirty flag is set on every map move (a); when a rebuild is
attempted while some covering tile is not yet `loaded`, the flag is left
set, forcing a retry on a later frame (b); the flag can become `false`
only if it already was `false` (no attempt runs) or an attempt ran with
every covering tile `loaded` (c); and when an attempt does run with all
covering tiles loaded, the flag is cleared no matter how the rebuild
itself turns out (d). -/
theorem c8_water_dirty_flag (flag : Bool) (tileStates : List CvState)
    (polygonsEmpty unionThrows : Bool) :
    waterMoveEnd flag = true ∧
    (flag = true →
      tileStates.any (fun st => decide (¬ st = CvState.loaded)) = true →
      waterPrerender flag tileStates polygonsEmpty unionThrows = true) ∧
    (waterPrerender flag tileStates polygonsEmpty unionThrows = false →
      flag = false ∨
      (flag = true ∧
        tileStates.any (fun st => decide (¬ st = CvState.loaded)) = false)) ∧
    (flag = true →
      tileStates.any (fun st => decide (¬ st = CvState.loaded)) = false →
      waterPrerender flag tileStates polygonsEmpty unionThrows = false) := by
  refine ⟨rfl, ?_, ?_, ?_⟩
  · intro hf hnr
    unfold waterPrerender
    rw [if_neg (by simp [hf]), if_pos hnr]
    exact hf
  · intro hres
    cases hf : flag with
    | false => exact Or.inl rfl
    | true =>
      refine Or.inr ⟨rfl, ?_⟩
      subst hf
      unfold waterPrerender at hres
      rw [if_neg (by simp)] at hres
      by_cases hnr :
          tileStates.any (fun st => decide (¬ st = CvState.loaded)) = true
      · rw [if_pos hnr] at hres
        exact absurd hres (by simp)
      · simpa using hnr
  · intro hf hnr
    unfold waterPrerender
    rw [if_neg (by simp [hf]), if_neg (by rw [hnr]; simp)]
    split
    · rfl
    · split <;> rfl

/-- Witness for C8 with the flag set, one loaded covering tile, no water
polygons. -/
theorem c8_water_dirty_flag_witness :
    waterMoveEnd true = true ∧
    (true = true →
      ([CvState.loaded].any (fun st => decide (¬ st = CvState.loaded))) =
        true →
      waterPrerender true [CvState.loaded] true false = true) ∧
    (waterPrerender true [CvState.loaded] true false = false →
      true = false ∨
      (true = true ∧
        ([CvState.loaded].any (fun st => decide (¬ st = CvState.loaded))) =
          false)) ∧
    (true = true →
      ([CvState.loaded].any (fun st => decide (¬ st = CvState.loaded))) =
        false →
      waterPrerender true [CvState.loaded] true false = false) :=
  c8_water_dirty_flag true [CvState.loaded] true false

/-! ## C5: picking — `ModelLayer.handleClick` (src/unnamed/part_011, lines
211-283) and `EditLayer.handleClick`
(src/src/components/map/layers/EditLayer.ts, lines 262-335)

Both handlers share the same structure.  For every visible tile with a
cached sub-scene, a ray is built from the inverse of that tile's projection
matrix: the near/far NDC points `(x, y, ∓1, 1)` are transformed by the
inverse and divided by their `w`; origin is the near point and the
direction points from near to far (the source normalizes the direction —
a positive scaling that does not affect which objects a ray hits, and has
no exact counterpart over `ℚ`).  The THREE raycaster is an oracle
`raycast : PickRay → Nat → List Hit` returning the intersections of the
given ray with the given sub-scene, sorted by distance (THREE's
`intersectObjects` contract).  A hit's `object` is its ancestor chain from
the hit primitive up to the scene root, each node carrying
`(id, userData.isModelRoot)`. -/

structure Hit where
  distance : ℚ
  object : List (Nat × Bool)
  deriving DecidableEq, Repr

structure PickRay where
  origin : Fin 3 → ℚ
  dir : Fin 3 → ℚ

/-- One visible tile: the inverse of its projection matrix and its cached
sub-scene handle, when `tile?.sceneTile` (and the tile id) are present. -/
structure PickTile where
  inv : Matrix (Fin 4) (Fin 4) ℚ
  scene : Option Nat

/-- Unproject an NDC point at depth `z`: apply the inverse projection
matrix to `(x, y, z, 1)` and divide by `w` (lines 245-248). -/
def unproject (inv : Matrix (Fin 4) (Fin 4) ℚ) (ndc : ℚ × ℚ) (z : ℚ) :
    Fin 4 → ℚ :=
  let v := inv.mulVec ![ndc.1, ndc.2, z, 1]
  fun i => v i / v 3

/-- The per-tile ray (lines 245-253): origin at the unprojected near point,
direction from near towards far (left unnormalized, see above). -/
def rayForTile (inv : Matrix (Fin 4) (Fin 4) ℚ) (ndc : ℚ × ℚ) : PickRay :=
  let pNear := unproject inv ndc (-1)
  let pFar := unproject inv ndc 1
  { origin := fun i => pNear i.castSucc,
    dir := fun i => pFar i.castSucc - pNear i.castSucc }

/-- `while (obj && !obj.userData?.isModelRoot) obj = obj.parent` (lines
258-261): the nearest ancestor flagged as a model root, if any. -/
def resolveRoot : List (Nat × Bool) → Option Nat
  | [] => none
  | (id, isRoot) :: rest => if isRoot then some id else resolveRoot rest

/-- What one tile contributes to the pick (lines 255-267): nothing without
a hit list or when the closest hit resolves to no model root; otherwise the
closest hit's distance and its resolved root. -/
def tileContribution (hits : Option (List Hit)) : Option (ℚ × Nat) :=
  match hits with
  | none => none
  | some [] => none
  | some (h0 :: _) =>
      match resolveRoot h0.object with
      | none => none
      | some r => some (h0.distance, r)

/-- The raycast results of one tile: `none` when the tile has no cached
sub-scene, otherwise the oracle's sorted hit list for this tile's ray. -/
def tileHits (ndc : ℚ × ℚ) (raycast : PickRay → Nat → List Hit)
    (tile : PickTile) : Option (List Hit) :=
  match tile.scene with
  | none => none
  | some sc => some (raycast (rayForTile tile.inv ndc) sc)

/-- The `bestHit` fold over the visible tiles (lines 230-268): a tile's
contribution replaces the current best exactly when there is no best yet
or its distance is strictly smaller. -/
def pickStep (best : Option (ℚ × Nat)) (c : Option (ℚ × Nat)) :
    Option (ℚ × Nat) :=
  match c with
  | none => best
  | some (d, r) =>
      match best with
      | none => some (d, r)
      | some (bd, br) => if d < bd then some (d, r) else some (bd, br)

def pickFold (contribs : List (Option (ℚ × Nat))) : Option (ℚ × Nat) :=
  contribs.foldl pickStep none

/-- `handleClick` (lines 211-283): fold the per-tile contributions; with no
best hit, fire `onPickFail` exactly once, else fire `onPick` with the best
hit.  Returns the `onPick` payload and the number of `onPickFail` calls. -/
def handleClick (ndc : ℚ × ℚ) (raycast : PickRay → Nat → List Hit)
    (tiles : List PickTile) : Option (ℚ × Nat) × Nat :=
  match pickFold (tiles.map fun t => tileContribution (tileHits ndc raycast t)) with
  | none => (none, 1)
  | some br => (some br, 0)

theorem pickStep_eq_none {acc c : Option (ℚ × Nat)} :
    pickStep acc c = none ↔ acc = none ∧ c = none := by
  cases c with
  | none => simp [pickStep]
  | some p =>
    obtain ⟨d, r⟩ := p
    cases acc with
    | none => simp [pickStep]
    | some q =>
      obtain ⟨bd, br⟩ := q
      simp only [pickStep]
      split <;> simp

theorem pickFold_none_iff :
    ∀ (cs : List (Option (ℚ × Nat))) (acc : Option (ℚ × Nat)),
      cs.foldl pickStep acc = none ↔ acc = none ∧ ∀ c ∈ cs, c = none := by
  intro cs
  induction cs with
  | nil => intro acc; simp
  | cons c rest ih =>
    intro acc
    simp only [List.foldl_cons]
    rw [ih, pickStep_eq_none]
    constructor
    · rintro ⟨⟨h1, h2⟩, h3⟩
      refine ⟨h1, fun x hx => ?_⟩
      rcases List.mem_cons.mp hx with rfl | hx
      · exact h2
      · exact h3 x hx
    · rintro ⟨h1, h2⟩
      exact ⟨⟨h1, h2 c (List.mem_cons_self c rest)⟩,
        fun x hx => h2 x (List.mem_cons_of_mem _ hx)⟩

theorem pickFold_some :
    ∀ (cs : List (Option (ℚ × Nat))) (acc : Option (ℚ × Nat)) (d : ℚ)
      (r : Nat),
      cs.foldl pickStep acc = some (d, r) →
      (acc = some (d, r) ∨ some (d, r) ∈ cs) ∧
      (∀ d' r', some (d', r') ∈ cs → d ≤ d') ∧
      (∀ ad ar, acc = some (ad, ar) → d ≤ ad) := by
  intro cs
  induction cs with
  | nil =>
    intro acc d r h
    simp only [List.foldl_nil] at h
    refine ⟨Or.inl h, by simp, fun ad ar ha => ?_⟩
    rw [ha] at h
    obtain ⟨h1, h2⟩ := Prod.mk.injEq .. ▸ Option.some.inj h
    exact le_of_eq h1.symm
  | cons c rest ih =>
    intro acc d r h
    simp only [List.foldl_cons] at h
    obtain ⟨h1, h2, h3⟩ := ih (pickStep acc c) d r h
    refine ⟨?_, ?_, ?_⟩
    · rcases h1 with h1 | h1
      · cases c with
        | none => exact Or.inl (by simpa [pickStep] using h1)
        | some p =>
          obtain ⟨cd, cr⟩ := p
          cases acc with
          | none =>
            refine Or.inr ?_
            simp only [pickStep] at h1
            rw [h1]
            exact List.mem_cons_self _ _
          | some q =>
            obtain ⟨bd, br⟩ := q
            simp only [pickStep] at h1
            by_cases hlt : cd < bd
            · rw [if_pos hlt] at h1
              refine Or.inr ?_
              rw [h1]
              exact List.mem_cons_self _ _
            · rw [if_neg hlt] at h1
              exact Or.inl h1
      · exact Or.inr (List.mem_cons_of_mem _ h1)
    · intro d' r' hmem
      rcases List.mem_cons.mp hmem with heq | hmem'
      · subst heq
        cases acc with
        | none => exact h3 d' r' rfl
        | some q =>
          obtain ⟨bd, br⟩ := q
          by_cases hlt : d' < bd
          · refine h3 d' r' ?_
            simp only [pickStep]
            rw [if_pos hlt]
          · have hstep : pickStep (some (bd, br)) (some (d', r')) =
                some (bd, br) := by
              simp only [pickStep]
              rw [if_neg hlt]
            have hb : d ≤ bd := h3 bd br hstep
            push_neg at hlt
            exact le_trans hb hlt
      · exact h2 d' r' hmem'
    · intro ad ar ha
      subst ha
      cases c with
      | none => exact h3 ad ar rfl
      | some p =>
        obtain ⟨cd, cr⟩ := p
        by_cases hlt : cd < ad
        · have hstep : pickStep (some (ad, ar)) (some (cd, cr)) =
              some (cd, cr) := by
            simp only [pickStep]
            rw [if_pos hlt]
          exact le_trans (h3 cd cr hstep) (le_of_lt hlt)
        · have hstep : pickStep (some (ad, ar)) (some (cd, cr)) =
              some (ad, ar) := by
            simp only [pickStep]
            rw [if_neg hlt]
          exact h3 ad ar hstep

/-- C5: for a pointer click, a per-tile ray built from the inverse of each
visible tile's projection matrix is intersected against that tile's cached
sub-scene; assuming the raycaster's contract (each tile's hit list is
sorted by distance) and that every hit lies under an ancestor flagged as a
model root, then: the pick-failure callback fires exactly once if and only
if no tile yields a hit, and it fires instead of `onPick` (first two
conjuncts); and when `onPick` fires, its hit has distance no larger than
every hit of every tile, and it is the closest hit of one of the tiles,
resolved upward to the ancestor flagged as the model root (third
conjunct). -/
theorem c5_pick_closest_hit_or_fail_once
    (ndc : ℚ × ℚ) (raycast : PickRay → Nat → List Hit)
    (tiles : List PickTile)
    (hsorted : ∀ t ∈ tiles, ∀ h0 hs h,
      tileHits ndc raycast t = some (h0 :: hs) → h ∈ h0 :: hs →
      h0.distance ≤ h.distance)
    (hresolve : ∀ t ∈ tiles, ∀ hits h, tileHits ndc raycast t = some hits →
      h ∈ hits → (resolveRoot h.object).isSome = true) :
    ((handleClick ndc raycast tiles).2 = 1 ↔
      ∀ t ∈ tiles, ∀ hits, tileHits ndc raycast t = some hits →
        hits = []) ∧
    ((handleClick ndc raycast tiles).1 = none ↔
      (handleClick ndc raycast tiles).2 = 1) ∧
    (∀ d r, (handleClick ndc raycast tiles).1 = some (d, r) →
      (∀ t ∈ tiles, ∀ hits h, tileHits ndc raycast t = some hits →
        h ∈ hits → d ≤ h.distance) ∧
      (∃ t ∈ tiles, ∃ h0 hs, tileHits ndc raycast t = some (h0 :: hs) ∧
        h0.distance = d ∧ resolveRoot h0.object = some r)) := by
  have hcontrib : ∀ t ∈ tiles, ∀ h0 hs,
      tileHits ndc raycast t = some (h0 :: hs) →
      ∃ r0, resolveRoot h0.object = some r0 ∧
        tileContribution (tileHits ndc raycast t) =
          some (h0.distance, r0) := by
    intro t ht h0 hs hh
    have hiso := hresolve t ht (h0 :: hs) h0 hh (List.mem_cons_self _ _)
    obtain ⟨r0, hr0⟩ := Option.isSome_iff_exists.mp hiso
    refine ⟨r0, hr0, ?_⟩
    rw [hh]
    unfold tileContribution
    dsimp only
    rw [hr0]
  constructor
  · constructor
    · intro hcount
      have hnone : pickFold (tiles.map fun t =>
          tileContribution (tileHits ndc raycast t)) = none := by
        by_contra hc
        obtain ⟨br, hbr⟩ := Option.ne_none_iff_exists'.mp hc
        unfold handleClick at hcount
        rw [hbr] at hcount
        exact absurd hcount (by simp)
      rw [pickFold, pickFold_none_iff] at hnone
      intro t ht hits hh
      cases hits with
      | nil => rfl
      | cons h0 hs =>
        obtain ⟨r0, hr0, hcon⟩ := hcontrib t ht h0 hs hh
        have hmem : tileContribution (tileHits ndc raycast t) ∈
            tiles.map fun t => tileContribution (tileHits ndc raycast t) :=
          List.mem_map.mpr ⟨t, ht, rfl⟩
        have := hnone.2 _ hmem
        rw [hcon] at this
        exact absurd this (by simp)
    · intro hempty
      have hall : ∀ c ∈ (tiles.map fun t =>
          tileContribution (tileHits ndc raycast t)), c = none := by
        intro c hc
        obtain ⟨t, ht, rfl⟩ := List.mem_map.mp hc
        show tileContribution (tileHits ndc raycast t) = none
        cases hh : tileHits ndc raycast t with
        | none => rfl
        | some hits =>
          have := hempty t ht hits hh
          subst this
          rfl
      have hnone : pickFold (tiles.map fun t =>
          tileContribution (tileHits ndc raycast t)) = none := by
        rw [pickFold, pickFold_none_iff]
        exact ⟨rfl, hall⟩
      unfold handleClick
      rw [hnone]
  constructor
  · cases hf : pickFold (tiles.map fun t =>
        tileContribution (tileHits ndc raycast t)) with
    | none =>
      unfold handleClick
      rw [hf]
      simp
    | some br =>
      unfold handleClick
      rw [hf]
      simp
  · intro d r hpick
    have hfold : pickFold (tiles.map fun t =>
        tileContribution (tileHits ndc raycast t)) = some (d, r) := by
      unfold handleClick at hpick
      cases hf : pickFold (tiles.map fun t =>
          tileContribution (tileHits ndc raycast t)) with
      | none => rw [hf] at hpick; exact absurd hpick (by simp)
      | some br =>
        rw [hf] at hpick
        simp only at hpick
        exact hpick
    rw [pickFold] at hfold
    obtain ⟨h1, h2, -⟩ := pickFold_some _ none d r hfold
    constructor
    · intro t ht hits h hh hmemh
      cases hits with
      | nil => exact absurd hmemh (by simp)
      | cons h0 hs =>
        obtain ⟨r0, hr0, hcon⟩ := hcontrib t ht h0 hs hh
        have hmem : some (h0.distance, r0) ∈ tiles.map fun t =>
            tileContribution (tileHits ndc raycast t) := by
          rw [← hcon]
          exact List.mem_map.mpr ⟨t, ht, rfl⟩
        have hd0 : d ≤ h0.distance := h2 _ _ hmem
        exact le_trans hd0 (hsorted t ht h0 hs h hh hmemh)
    · rcases h1 with h1 | h1
      · exact absurd h1 (by simp)
      · obtain ⟨t, ht, hcon⟩ := List.mem_map.mp h1
        cases hh : tileHits ndc raycast t with
        | none => rw [hh] at hcon; exact absurd hcon (by simp [tileContribution])
        | some hits =>
          cases hits with
          | nil =>
            rw [hh] at hcon
            exact absurd hcon (by simp [tileContribution])
          | cons h0 hs =>
            obtain ⟨r0, hr0, hcon2⟩ := hcontrib t ht h0 hs hh
            rw [hcon2] at hcon
            obtain ⟨hd, hr⟩ := Prod.mk.injEq .. ▸ Option.some.inj hcon
            exact ⟨t, ht, h0, hs, hh, hd, hr ▸ hr0⟩

def c5hit : Hit := { distance := 3, object := [(7, true)] }

def c5raycast : PickRay → Nat → List Hit := fun _ _ => [c5hit]

def c5tiles : List PickTile := [{ inv := 1, scene := some 0 }]

def c5ndc : ℚ × ℚ := (0, 0)

/-- Witness for C5 at a concrete click: one visible tile with a cached
sub-scene whose raycast yields a single hit at distance 3 under a
model-root ancestor with id 7. -/
theorem c5_pick_closest_hit_or_fail_once_witness :
    ((handleClick c5ndc c5raycast c5tiles).2 = 1 ↔
      ∀ t ∈ c5tiles, ∀ hits, tileHits c5ndc c5raycast t = some hits →
        hits = []) ∧
    ((handleClick c5ndc c5raycast c5tiles).1 = none ↔
      (handleClick c5ndc c5raycast c5tiles).2 = 1) ∧
    (∀ d r, (handleClick c5ndc c5raycast c5tiles).1 = some (d, r) →
      (∀ t ∈ c5tiles, ∀ hits h, tileHits c5ndc c5raycast t = some hits →
        h ∈ hits → d ≤ h.distance) ∧
      (∃ t ∈ c5tiles, ∃ h0 hs,
        tileHits c5ndc c5raycast t = some (h0 :: hs) ∧
        h0.distance = d ∧ resolveRoot h0.object = some r)) :=
  c5_pick_closest_hit_or_fail_once c5ndc c5raycast c5tiles
    (by
      intro t ht h0 hs h hh hm
      simp only [c5tiles, List.mem_singleton] at ht
      subst ht
      have hlist : ([c5hit] : List Hit) = h0 :: hs := by
        simpa [tileHits, c5raycast] using hh
      injection hlist with e1 e2
      subst e1
      subst e2
      simp only [List.mem_singleton] at hm
      subst hm
      exact le_refl _)
    (by
      intro t ht hits h hh hm
      simp only [c5tiles, List.mem_singleton] at ht
      subst ht
      have hlist : ([c5hit] : List Hit) = hits := by
        simpa [tileHits, c5raycast] using hh
      subst hlist
      simp only [List.mem_singleton] at hm
      subst hm
      simp [c5hit, resolveRoot])
